import Mathlib

/-!
Verification of the task-orchestration engine of the redBook repository
(`src/services/task-orchestrator.ts`, types from `src/types/index.ts` /
`src/db/schema.ts`).

The TypeScript code is shallowly embedded:
* JS `Map` objects become association lists (`List (String × β)`) with
  `Map.set`/`Map.get` modelled by `setA`/`lookupA`; JS `Map` iteration order
  is insertion order, which the list order reproduces.
* The module-global mutable counters and stores become explicitly threaded
  state; each call of `Date.now()` becomes an explicit `Nat` argument.
* `throw new Error(msg)` becomes `Except.error msg`.
* The injected step executor (`StepExecutor`) becomes a pure function
  `TaskStep ε → Except String ε`; `Except.error m` stands for a
  rejection whose *normalized* message (the source applies
  `error instanceof Error ? error.message : String(error)`) is `m`.
-/

namespace RedBook

/-- `TaskType` from `src/types/index.ts`. -/
inductive TaskType where
  | competitor_analysis
  | trending_tracking
  | content_generation
  | content_publish
  | strategy_generation
  | operation_summary
  | comment_analysis
deriving DecidableEq, Repr

/-- `Platform` from `src/types/index.ts`. -/
inductive Platform where
  | xiaohongshu
  | douyin
  | weibo
  | wechat
deriving DecidableEq, Repr

/-- Step status union `'pending' | 'running' | 'completed' | 'failed'`
(`TaskStatus` in `src/db/schema.ts`). -/
inductive TaskStatus where
  | pending
  | running
  | completed
  | failed
deriving DecidableEq, Repr

/-- `PlanStatus` from `src/db/schema.ts`:
`'pending' | 'running' | 'completed' | 'failed'`. -/
inductive PlanStatus where
  | pending
  | running
  | completed
  | failed
deriving DecidableEq, Repr

/-- A value stored in a `Record<string, unknown>` parameter bag.  The
orchestrator never inspects these; only the shapes written by the code are
distinguished. -/
inductive ParamValue where
  | str : String → ParamValue
  | plat : Platform → ParamValue
  | other
deriving DecidableEq, Repr

/-- `ParsedIntent` from `src/types/index.ts`.  `confidence : number` is
modelled as a `Nat`; the orchestrator never reads it. -/
structure ParsedIntent where
  taskType : TaskType
  platform : Platform
  category : String
  parameters : List (String × ParamValue)
  confidence : Nat
deriving Repr

/-- A step's `result` field: either the executor's returned value or the
`{ error: string }` object written on failure.  `ε` is the (otherwise
`unknown`) type of executor return values. -/
inductive StepResult (ε : Type) where
  | ok (value : ε)
  | err (error : String)
deriving Repr

/-- `TaskStep` from `src/types/index.ts`; `result?` is an `Option`. -/
structure TaskStep (ε : Type) where
  id : String
  type : TaskType
  dependencies : List String
  parameters : List (String × ParamValue)
  status : TaskStatus
  result : Option (StepResult ε)
deriving Repr

/-- `ExecutionPlan` from `src/types/index.ts`; `createdAt : Date` is an
abstract timestamp (`Nat`). -/
structure ExecutionPlan (ε : Type) where
  id : String
  steps : List (TaskStep ε)
  status : PlanStatus
  createdAt : Nat
deriving Repr

-- ============================================================
-- JS `Map` model: association lists in insertion order
-- ============================================================

variable {β : Type}

/-- `Map.set k v`: replace the binding of `k` in place if present, else
append `(k, v)` (JS `Map`s keep the original insertion position of an
updated key). -/
def setA (k : String) (v : β) : List (String × β) → List (String × β)
  | [] => [(k, v)]
  | p :: rest => if p.1 = k then (k, v) :: rest else p :: setA k v rest

/-- `Map.get k` (first binding; lists built with `setA` never have
duplicate keys). -/
def lookupA (k : String) : List (String × β) → Option β
  | [] => none
  | p :: rest => if p.1 = k then some p.2 else lookupA k rest

/-- The keys of an association list, in insertion order. -/
def keysA (m : List (String × β)) : List String := m.map Prod.fst

-- ============================================================
-- ID generation (`generatePlanId` / `generateStepId`)
-- ============================================================

/-- `generateStepId`: post-increments the module-global `stepCounter` and
renders ``step-${Date.now()}-${stepCounter}``.  `t` is the `Date.now()`
value of this call, `c` the counter value before it; returns the id and
the new counter. -/
def generateStepId (t : Nat) (c : Nat) : String × Nat :=
  ("step-" ++ toString t ++ "-" ++ toString (c + 1), c + 1)

/-- `generatePlanId`, same shape with the `plan-` prefix and the
`planCounter`. -/
def generatePlanId (t : Nat) (pc : Nat) : String × Nat :=
  ("plan-" ++ toString t ++ "-" ++ toString (pc + 1), pc + 1)

-- ============================================================
-- Plan templates (`getPlanTemplate`) and step building (`buildSteps`)
-- ============================================================

/-- `StepTemplate` from `task-orchestrator.ts`. -/
structure StepTemplate where
  type : TaskType
  descriptionKey : String
deriving Repr

/-- `PlanTemplate`; the `Record<number, number[]>` dependency table with its
`?? []` read default is a total function `Nat → List Nat`. -/
structure PlanTemplate where
  steps : List StepTemplate
  dependencies : Nat → List Nat

/-- `getPlanTemplate`: template for each task type; the four simple types
(and the `default` arm) yield a single dependency-free step. -/
def getPlanTemplate (taskType : TaskType) : PlanTemplate :=
  match taskType with
  | .strategy_generation =>
    { steps := [⟨.competitor_analysis, "collect_competitor_data"⟩,
                ⟨.trending_tracking, "collect_trending_data"⟩,
                ⟨.strategy_generation, "generate_strategy"⟩,
                ⟨.content_generation, "generate_strategy_content"⟩],
      dependencies := fun i =>
        match i with
        | 0 => [] | 1 => [] | 2 => [0, 1] | 3 => [2] | _ => [] }
  | .content_publish =>
    { steps := [⟨.content_generation, "prepare_content"⟩,
                ⟨.content_publish, "publish_content"⟩],
      dependencies := fun i => match i with | 1 => [0] | _ => [] }
  | .operation_summary =>
    { steps := [⟨.comment_analysis, "analyze_comments"⟩,
                ⟨.operation_summary, "generate_summary"⟩],
      dependencies := fun i => match i with | 1 => [0] | _ => [] }
  | t =>
    { steps := [⟨t, "execute_" ++ (reprStr t)⟩],
      dependencies := fun _ => [] }

variable {ε : Type}

/-- The parameter bag written into every built step:
`{ ...intent.parameters, platform, category, descriptionKey }`. -/
def mkStepParameters (intent : ParsedIntent) (descriptionKey : String) :
    List (String × ParamValue) :=
  intent.parameters ++
    [("platform", .plat intent.platform),
     ("category", .str intent.category),
     ("descriptionKey", .str descriptionKey)]

/-- First pass of `buildSteps`: create one step per template entry with a
fresh id and empty dependencies.  `tf k` is the `Date.now()` value observed
by the `k`-th `generateStepId` call, `c` the current `stepCounter`. -/
def buildStepsPass1 (intent : ParsedIntent) (tf : Nat → Nat) :
    List StepTemplate → Nat → Nat → List (TaskStep ε) × Nat
  | [], _, c => ([], c)
  | st :: rest, k, c =>
    let idc := generateStepId (tf k) c
    let tail := buildStepsPass1 intent tf rest (k + 1) idc.2
    ({ id := idc.1, type := st.type, dependencies := [],
       parameters := mkStepParameters intent st.descriptionKey,
       status := .pending, result := none } :: tail.1, tail.2)

/-- Second pass of `buildSteps`: resolve the index-based dependency table
into step ids (`stepIds[depIdx]`).  An out-of-range index yields JS
`undefined`, which would later render as the string `"undefined"`; all
built-in templates stay in range. -/
def fillDeps (template : PlanTemplate) (stepIds : List String) :
    List (TaskStep ε) → Nat → List (TaskStep ε)
  | [], _ => []
  | s :: rest, i =>
    { s with dependencies :=
        (template.dependencies i).map (fun depIdx => stepIds.getD depIdx "undefined") }
      :: fillDeps template stepIds rest (i + 1)

/-- `buildSteps`: both passes; returns the steps and the new `stepCounter`. -/
def buildSteps (intent : ParsedIntent) (template : PlanTemplate)
    (tf : Nat → Nat) (c : Nat) : List (TaskStep ε) × Nat :=
  let pass1 : List (TaskStep ε) × Nat := buildStepsPass1 intent tf template.steps 0 c
  (fillDeps template (pass1.1.map TaskStep.id) pass1.1 0, pass1.2)

-- ============================================================
-- Orchestrator state (module-global stores and counters)
-- ============================================================

/-- The module-global mutable state of `task-orchestrator.ts`:
`planStore`, `stepIndex`, `planCounter`, `stepCounter`. -/
structure OrchestratorState (ε : Type) where
  planStore : List (String × ExecutionPlan ε)
  stepIndex : List (String × String)
  planCounter : Nat
  stepCounter : Nat

/-- `clearAllPlans`: clears both stores and resets both counters to 0. -/
def clearAllPlans (_st : OrchestratorState ε) : OrchestratorState ε :=
  { planStore := [], stepIndex := [], planCounter := 0, stepCounter := 0 }

/-- `createPlan`: build the steps from the template, store the plan, index
the steps.  `tf` gives the `Date.now()` values of the `generateStepId`
calls, `tPlan` that of `generatePlanId`, `tCreated` that of `new Date()`. -/
def createPlan (intent : ParsedIntent) (tf : Nat → Nat) (tPlan : Nat)
    (tCreated : Nat) (st : OrchestratorState ε) :
    ExecutionPlan ε × OrchestratorState ε :=
  let template := getPlanTemplate intent.taskType
  let built : List (TaskStep ε) × Nat := buildSteps intent template tf st.stepCounter
  let pid := generatePlanId tPlan st.planCounter
  let plan : ExecutionPlan ε :=
    { id := pid.1, steps := built.1, status := .pending, createdAt := tCreated }
  (plan,
   { planStore := setA pid.1 plan st.planStore,
     stepIndex := built.1.foldl (fun ix s => setA s.id pid.1 ix) st.stepIndex,
     planCounter := pid.2, stepCounter := built.2 })

-- ============================================================
-- Topological sort (`topologicalSort`, Kahn's algorithm by layers)
-- ============================================================

/-- Initialization loop, `stepMap` part: `stepMap.set(step.id, step)`. -/
def stepMapOf (steps : List (TaskStep ε)) : List (String × TaskStep ε) :=
  steps.foldl (fun m s => setA s.id s m) []

/-- Initialization loop, `inDegree` part: `inDegree.set(step.id, 0)`.
Degrees are `Int`, as JS numbers can in principle go negative. -/
def initInDegree (steps : List (TaskStep ε)) : List (String × Int) :=
  steps.foldl (fun m s => setA s.id 0 m) []

/-- Initialization loop, `adjacency` part: `adjacency.set(step.id, [])`. -/
def initAdjacency (steps : List (TaskStep ε)) : List (String × List String) :=
  steps.foldl (fun m s => setA s.id [] m) []

/-- The error message for an unresolvable dependency id. -/
def depNotFoundMsg (depId : String) : String :=
  "Dependency step \"" ++ depId ++ "\" not found in plan"

/-- The error message for a detected cycle. -/
def circularMsg : String := "Circular dependency detected in execution plan"

/-- Inner edge-building loop over one step's `dependencies`:
check `stepMap.has(depId)`, push `step.id` onto `adjacency.get(depId)`,
and bump `inDegree` of `step.id` (`(inDegree.get(step.id) ?? 0) + 1`). -/
def addDepEdges (stepMap : List (String × TaskStep ε)) (sid : String) :
    List String → List (String × List String) × List (String × Int) →
    Except String (List (String × List String) × List (String × Int))
  | [], g => .ok g
  | depId :: rest, g =>
    if (lookupA depId stepMap).isSome then
      addDepEdges stepMap sid rest
        (setA depId ((lookupA depId g.1).getD [] ++ [sid]) g.1,
         setA sid ((lookupA sid g.2).getD 0 + 1) g.2)
    else .error (depNotFoundMsg depId)

/-- Outer edge-building loop over all steps. -/
def addAllEdges (stepMap : List (String × TaskStep ε)) :
    List (TaskStep ε) → List (String × List String) × List (String × Int) →
    Except String (List (String × List String) × List (String × Int))
  | [], g => .ok g
  | s :: rest, g =>
    match addDepEdges stepMap s.id s.dependencies g with
    | .error e => .error e
    | .ok g' => addAllEdges stepMap rest g'

/-- Seed of the BFS: all keys of `inDegree` with degree 0, in map
iteration (= insertion) order. -/
def initialQueue (inDeg : List (String × Int)) : List String :=
  inDeg.filterMap (fun p => if p.2 = 0 then some p.1 else none)

/-- One successor decrement inside the BFS:
`newDegree = (inDegree.get(succId) ?? 1) - 1`; push to `nextQueue` when it
reaches 0. -/
def decSucc (st : List (String × Int) × List String) (succId : String) :
    List (String × Int) × List String :=
  let newDegree := (lookupA succId st.1).getD 1 - 1
  (setA succId newDegree st.1,
   if newDegree = 0 then st.2 ++ [succId] else st.2)

/-- Process one queue node: decrement all its successors
(`adjacency.get(nodeId) ?? []`). -/
def processNode (adj : List (String × List String))
    (st : List (String × Int) × List String) (nodeId : String) :
    List (String × Int) × List String :=
  ((lookupA nodeId adj).getD []).foldl decSucc st

/-- Process a whole queue, collecting the next frontier. -/
def processQueue (adj : List (String × List String))
    (inDeg : List (String × Int)) (queue : List String) :
    List (String × Int) × List String :=
  queue.foldl (processNode adj) (inDeg, [])

/-- The `while (queue.length > 0)` loop.  Lean needs a fuel argument; the
loop runs at most once per (distinct) step id, so `steps.length + 1` fuel
is never exhausted (`bfsLoop` is only ever called with that much). -/
def bfsLoop (adj : List (String × List String)) :
    Nat → List (String × Int) → List String → List (List String) → Nat →
    List (List String) × Nat
  | 0, _, _, layers, count => (layers, count)
  | fuel + 1, inDeg, queue, layers, count =>
    if queue.isEmpty then (layers, count)
    else
      let st := processQueue adj inDeg queue
      bfsLoop adj fuel st.1 st.2 (layers ++ [queue]) (count + queue.length)

/-- `topologicalSort`: build the graph (throwing on unknown dependency
ids), run the layered BFS, and compare `processedCount` with
`steps.length` to detect cycles. -/
def topologicalSort (steps : List (TaskStep ε)) :
    Except String (List (List String)) :=
  let stepMap := stepMapOf steps
  match addAllEdges stepMap steps (initAdjacency steps, initInDegree steps) with
  | .error e => .error e
  | .ok g =>
    let queue := initialQueue g.2
    let res := bfsLoop g.1 (steps.length + 1) g.2 queue [] 0
    if res.2 ≠ steps.length then .error circularMsg
    else .ok res.1

-- ============================================================
-- Plan execution (`executePlan`)
-- ============================================================

/-- `StepExecutor`: the injected executor.  `Except.error m` is a
throw/rejection whose normalized message is `m`. -/
def StepExecutor (ε : Type) : Type := TaskStep ε → Except String ε

/-- Mutable state during layer execution: the (in-place mutated) steps,
the `failedStepIds` set (as a list, used only through membership) and the
ids the executor has been invoked on (instrumentation used to state
"the executor was never invoked for this step"). -/
structure ExecState (ε : Type) where
  steps : List (TaskStep ε)
  failedStepIds : List String
  invoked : List String

/-- `result = { error: 'Dependency step failed' }`. -/
def depFailedResult : StepResult ε := .err "Dependency step failed"

/-- Update the step with the given id (JS mutates the object obtained from
`stepMap`, i.e. the *last* list entry with that id; ids are unique whenever
execution is reached, since duplicate ids make `topologicalSort` throw). -/
def updateFirstStep (stepId : String) (f : TaskStep ε → TaskStep ε) :
    List (TaskStep ε) → List (TaskStep ε)
  | [] => []
  | s :: rest =>
    if s.id = stepId then f s :: rest else s :: updateFirstStep stepId f rest

/-- See `updateFirstStep`: `stepMap.get` resolves to the last `Map.set`. -/
def updateStep (stepId : String) (f : TaskStep ε → TaskStep ε)
    (steps : List (TaskStep ε)) : List (TaskStep ε) :=
  (updateFirstStep stepId f steps.reverse).reverse

/-- `stepMap.get(stepId)`: the last step with that id. -/
def findStep (stepId : String) (steps : List (TaskStep ε)) :
    Option (TaskStep ε) :=
  steps.reverse.find? (fun s => s.id = stepId)

/-- `step.status = 'failed'; step.result = { error: 'Dependency step failed' }`. -/
def markDepFailed (s : TaskStep ε) : TaskStep ε :=
  { s with status := .failed, result := some depFailedResult }

/-- `step.status = 'running'`. -/
def markRunning (s : TaskStep ε) : TaskStep ε :=
  { s with status := .running }

/-- `step.status = 'completed'; step.result = result`. -/
def markCompleted (v : ε) (s : TaskStep ε) : TaskStep ε :=
  { s with status := .completed, result := some (.ok v) }

/-- `step.status = 'failed'; step.result = { error: message }`. -/
def markFailed (m : String) (s : TaskStep ε) : TaskStep ε :=
  { s with status := .failed, result := some (.err m) }

/--
The synchronous prefix of one layer callback
(`layer.map(async (stepId) => ...)`), run in array order: check
`hasFailedDependency` against the current `failedStepIds`; on a failed
dependency mark the step `failed` immediately (visible to the later
callbacks of the same layer); otherwise mark it `running` and invoke the
executor, deferring the settlement of its result to the `Promise.all`
barrier (second component).  A `stepId` missing from the steps is
impossible (layers only contain ids of the sorted steps) and is skipped.
-/
def dispatchStep (executor : StepExecutor ε)
    (st : ExecState ε × List (String × Except String ε)) (stepId : String) :
    ExecState ε × List (String × Except String ε) :=
  match findStep stepId st.1.steps with
  | none => st
  | some step =>
    if step.dependencies.any (fun d => st.1.failedStepIds.contains d) then
      ({ steps := updateStep stepId markDepFailed st.1.steps,
         failedStepIds := st.1.failedStepIds ++ [stepId],
         invoked := st.1.invoked }, st.2)
    else
      ({ steps := updateStep stepId markRunning st.1.steps,
         failedStepIds := st.1.failedStepIds,
         invoked := st.1.invoked ++ [stepId] },
       st.2 ++ [(stepId, executor (markRunning step))])

/-- Settlement of one executor promise at the layer barrier: `completed`
with the returned value, or `failed` with the normalized error message
(also recording the id in `failedStepIds`). -/
def settleStep (st : ExecState ε) (p : String × Except String ε) : ExecState ε :=
  match p.2 with
  | .ok v =>
    { st with steps := updateStep p.1 (markCompleted v) st.steps }
  | .error m =>
    { steps := updateStep p.1 (markFailed m) st.steps,
      failedStepIds := st.failedStepIds ++ [p.1],
      invoked := st.invoked }

/-- One layer: dispatch every callback's synchronous prefix in array
order, then settle all pending executor results at the `Promise.all`
barrier.  (In the source the executor calls of one layer run concurrently;
dependencies never link two steps of the same layer, and each settlement
touches only its own step, so settlement order is immaterial — array order
is used.) -/
def runLayer (executor : StepExecutor ε) (st : ExecState ε)
    (layer : List String) : ExecState ε :=
  let d := layer.foldl (dispatchStep executor) (st, [])
  d.2.foldl settleStep d.1

/-- All layers, in order (`for (const layer of layers)`). -/
def runLayers (executor : StepExecutor ε) (st : ExecState ε)
    (layers : List (List String)) : ExecState ε :=
  layers.foldl (runLayer executor) st

/-- The observable outcome of one `executePlan` call on a given plan: the
plan as left in the store (JS mutations persist even when the call
throws), the executor-invocation log, and the thrown error, if any. -/
structure ExecOutcome (ε : Type) where
  plan : ExecutionPlan ε
  invoked : List String
  thrown : Option String

/-- The body of `executePlan` once the plan is found: set the plan
`running`, topologically sort (a structural error propagates, leaving the
steps untouched), execute layer by layer, then recompute the plan status
(`completed` if all steps completed, else `failed` if any step failed,
else left `running`). -/
def executePlanOnPlan (executor : StepExecutor ε) (plan : ExecutionPlan ε) :
    ExecOutcome ε :=
  let plan1 := { plan with status := PlanStatus.running }
  match topologicalSort plan.steps with
  | .error e => ⟨plan1, [], some e⟩
  | .ok layers =>
    let final := runLayers executor ⟨plan1.steps, [], []⟩ layers
    let allCompleted := final.steps.all (fun s => s.status = .completed)
    let hasFailedSteps := final.steps.any (fun s => s.status = .failed)
    let newStatus :=
      if allCompleted then PlanStatus.completed
      else if hasFailedSteps then PlanStatus.failed
      else plan1.status
    ⟨{ plan1 with steps := final.steps, status := newStatus }, final.invoked, none⟩

/-- `executePlan(planId, executor)`: look the plan up in the store (an
unknown id throws without touching the store) and run it, writing the
mutated plan back.  Returns the store after the call, the invocation log
and the thrown error, if any. -/
def executePlan (planId : String) (executor : StepExecutor ε)
    (store : List (String × ExecutionPlan ε)) :
    List (String × ExecutionPlan ε) × List String × Option String :=
  match lookupA planId store with
  | none => (store, [], some ("Plan \"" ++ planId ++ "\" not found"))
  | some plan =>
    let o := executePlanOnPlan executor plan
    (setA planId o.plan store, o.invoked, o.thrown)


-- ============================================================
-- Lemmas about the `Map` model
-- ============================================================

theorem lookupA_setA (k k' : String) (v : β) (l : List (String × β)) :
    lookupA k' (setA k v l) = if k = k' then some v else lookupA k' l := by
  induction l with
  | nil => by_cases h : k = k' <;> simp [setA, lookupA, h]
  | cons p rest ih =>
    obtain ⟨a, b⟩ := p
    by_cases hp : a = k
    · by_cases h2 : k = k'
      · simp [setA, lookupA, hp, h2]
      · have hak : ¬ a = k' := fun he => h2 (hp ▸ he)
        simp [setA, lookupA, hp, h2, hak]
    · by_cases hk' : a = k'
      · have hkk : ¬ k = k' := fun he => hp (hk' ▸ he.symm ▸ rfl)
        have hk'k : ¬ k' = k := fun he => hkk he.symm
        simp [setA, lookupA, hp, hk', hkk, hk'k]
      · simp [setA, lookupA, hp, hk', ih]

theorem mem_keysA_setA (k k' : String) (v : β) (l : List (String × β)) :
    k' ∈ keysA (setA k v l) ↔ k' = k ∨ k' ∈ keysA l := by
  induction l with
  | nil => simp [setA, keysA]
  | cons p rest ih =>
    obtain ⟨a, b⟩ := p
    by_cases hp : a = k
    · simp only [setA, if_pos hp, keysA, List.map_cons, List.mem_cons] at *
      rw [hp]
      tauto
    · simp only [setA, if_neg hp, keysA, List.map_cons, List.mem_cons] at *
      rw [ih]
      tauto

theorem nodup_keysA_setA (k : String) (v : β) (l : List (String × β))
    (h : (keysA l).Nodup) : (keysA (setA k v l)).Nodup := by
  induction l with
  | nil => simp [setA, keysA]
  | cons p rest ih =>
    obtain ⟨a, b⟩ := p
    simp only [keysA, List.map_cons, List.nodup_cons] at h
    by_cases hp : a = k
    · simp only [setA, if_pos hp, keysA, List.map_cons, List.nodup_cons]
      exact ⟨hp ▸ h.1, h.2⟩
    · simp only [setA, if_neg hp, keysA, List.map_cons, List.nodup_cons]
      refine ⟨fun hmem => ?_, ih h.2⟩
      rcases (mem_keysA_setA k a v rest).1 hmem with h1 | h1
      · exact hp h1
      · exact h.1 h1

theorem lookupA_isSome_iff (k : String) (l : List (String × β)) :
    (lookupA k l).isSome ↔ k ∈ keysA l := by
  induction l with
  | nil => simp [lookupA, keysA]
  | cons p rest ih =>
    obtain ⟨a, b⟩ := p
    by_cases hp : a = k
    · simp [lookupA, keysA, hp]
    · simp only [lookupA, if_neg hp, keysA, List.map_cons, List.mem_cons]
      simp only [keysA] at ih
      rw [ih]
      constructor
      · exact fun hs => Or.inr hs
      · rintro (he | hm)
        · exact absurd he.symm hp
        · exact hm

theorem lookupA_eq_none_iff (k : String) (l : List (String × β)) :
    lookupA k l = none ↔ k ∉ keysA l := by
  rw [← lookupA_isSome_iff]
  cases lookupA k l <;> simp

/-- Under key nodup, lookup agrees with membership of the pair. -/
theorem lookupA_eq_some_iff_mem (k : String) (v : β) (l : List (String × β))
    (hnd : (keysA l).Nodup) : lookupA k l = some v ↔ (k, v) ∈ l := by
  induction l with
  | nil => simp [lookupA]
  | cons p rest ih =>
    obtain ⟨a, b⟩ := p
    simp only [keysA, List.map_cons, List.nodup_cons] at hnd
    have hcons : ∀ k', lookupA k' ((a, b) :: rest) =
        if a = k' then some b else lookupA k' rest := fun _ => rfl
    by_cases hp : a = k
    · subst hp
      rw [hcons, if_pos rfl]
      simp only [List.mem_cons, Option.some_inj]
      constructor
      · rintro rfl
        exact Or.inl rfl
      · rintro (he | hm)
        · exact (congrArg Prod.snd he).symm
        · exact absurd (List.mem_map_of_mem Prod.fst hm) hnd.1

    · rw [hcons, if_neg hp]
      simp only [List.mem_cons]
      rw [ih hnd.2]
      constructor
      · exact fun hm => Or.inr hm
      · rintro (he | hm)
        · exact absurd (congrArg Prod.fst he).symm hp
        · exact hm

-- ============================================================
-- Derived notions used by the graph lemmas
-- ============================================================

/-- The ids of a step list, in order. -/
def stepIds (steps : List (TaskStep ε)) : List String := steps.map TaskStep.id

/-- All dependency occurrences (with multiplicity) of the steps carrying
id `x`. -/
def depsOf (steps : List (TaskStep ε)) (x : String) : List String :=
  (steps.filter (fun s => s.id = x)).flatMap TaskStep.dependencies

/-- The number of dependency occurrences of `x`-steps whose dependency is
not in `P`: the in-degree of `x` once the nodes of `P` have been
processed. -/
def remDeg (steps : List (TaskStep ε)) (P : List String) (x : String) : Nat :=
  ((depsOf steps x).filter (fun d => ¬ d ∈ P)).length

/-- The successor list the edge loop builds for node `x` (one entry per
occurrence of `x` among a step's dependencies, in step order). -/
def succOf (steps : List (TaskStep ε)) (x : String) : List String :=
  steps.flatMap (fun s => List.replicate (s.dependencies.count x) s.id)

/-- Every declared dependency id names a step of the list. -/
def Resolvable (steps : List (TaskStep ε)) : Prop :=
  ∀ s ∈ steps, ∀ d ∈ s.dependencies, d ∈ stepIds steps

/-- The direct dependency relation: `depRel steps a b` holds when `a` is a
declared dependency of a step with id `b` (an edge `a → b`). -/
def depRel (steps : List (TaskStep ε)) (a b : String) : Prop :=
  ∃ s ∈ steps, s.id = b ∧ a ∈ s.dependencies

/-- No dependency cycle. -/
def Acyclic (steps : List (TaskStep ε)) : Prop :=
  ∀ x, ¬ Relation.TransGen (depRel steps) x x

-- ============================================================
-- Characterization of the initialization loop
-- ============================================================

theorem lookupA_foldl_setA_const {α : Type} (f : α → String) (c : β)
    (l : List α) (acc : List (String × β)) (x : String) :
    lookupA x (l.foldl (fun m s => setA (f s) c m) acc) =
      if x ∈ l.map f then some c else lookupA x acc := by
  induction l generalizing acc with
  | nil => simp
  | cons s rest ih =>
    simp only [List.foldl_cons, List.map_cons, List.mem_cons]
    rw [ih]
    by_cases hx : x ∈ rest.map f
    · simp [hx]
    · by_cases he : x = f s
      · simp [hx, he, lookupA_setA]
      · have he' : ¬ f s = x := fun h => he h.symm
        simp [hx, he, he', lookupA_setA]

theorem mem_keysA_foldl_setA {α : Type} (f : α → String) (g : α → β)
    (l : List α) (acc : List (String × β)) (x : String) :
    x ∈ keysA (l.foldl (fun m s => setA (f s) (g s) m) acc) ↔
      x ∈ l.map f ∨ x ∈ keysA acc := by
  induction l generalizing acc with
  | nil => simp
  | cons s rest ih =>
    simp only [List.foldl_cons, List.map_cons, List.mem_cons]
    rw [ih, mem_keysA_setA]
    tauto

theorem nodup_keysA_foldl_setA {α : Type} (f : α → String) (g : α → β)
    (l : List α) (acc : List (String × β)) (h : (keysA acc).Nodup) :
    (keysA (l.foldl (fun m s => setA (f s) (g s) m) acc)).Nodup := by
  induction l generalizing acc with
  | nil => exact h
  | cons s rest ih => exact ih _ (nodup_keysA_setA _ _ _ h)

theorem lookupA_initInDegree (steps : List (TaskStep ε)) (x : String) :
    lookupA x (initInDegree steps) =
      if x ∈ stepIds steps then some 0 else none := by
  have := lookupA_foldl_setA_const (β := Int) TaskStep.id 0 steps [] x
  simpa [initInDegree, stepIds, lookupA] using this

theorem lookupA_initAdjacency (steps : List (TaskStep ε)) (x : String) :
    lookupA x (initAdjacency steps) =
      if x ∈ stepIds steps then some [] else none := by
  have := lookupA_foldl_setA_const (β := List String) TaskStep.id [] steps [] x
  simpa [initAdjacency, stepIds, lookupA] using this

theorem mem_keysA_initInDegree (steps : List (TaskStep ε)) (x : String) :
    x ∈ keysA (initInDegree steps) ↔ x ∈ stepIds steps := by
  have := mem_keysA_foldl_setA TaskStep.id (fun _ => (0 : Int)) steps [] x
  simpa [initInDegree, stepIds, keysA] using this

theorem mem_keysA_initAdjacency (steps : List (TaskStep ε)) (x : String) :
    x ∈ keysA (initAdjacency steps) ↔ x ∈ stepIds steps := by
  have := mem_keysA_foldl_setA TaskStep.id (fun _ => ([] : List String)) steps [] x
  simpa [initAdjacency, stepIds, keysA] using this

theorem nodup_keysA_initInDegree (steps : List (TaskStep ε)) :
    (keysA (initInDegree steps)).Nodup := by
  have := nodup_keysA_foldl_setA TaskStep.id (fun _ => (0 : Int)) steps []
    (by simp [keysA])
  simpa [initInDegree] using this

theorem nodup_keysA_initAdjacency (steps : List (TaskStep ε)) :
    (keysA (initAdjacency steps)).Nodup := by
  have := nodup_keysA_foldl_setA TaskStep.id (fun _ => ([] : List String)) steps []
    (by simp [keysA])
  simpa [initAdjacency] using this

theorem stepMapOf_isSome_iff (steps : List (TaskStep ε)) (x : String) :
    (lookupA x (stepMapOf steps)).isSome ↔ x ∈ stepIds steps := by
  rw [lookupA_isSome_iff]
  have := mem_keysA_foldl_setA TaskStep.id (fun s => s) steps
    ([] : List (String × TaskStep ε)) x
  simpa [stepMapOf, stepIds, keysA] using this

-- ============================================================
-- Characterization of the edge-building loop
-- ============================================================

theorem keysA_setA_of_mem (k : String) (v : β) (l : List (String × β))
    (h : k ∈ keysA l) : keysA (setA k v l) = keysA l := by
  induction l with
  | nil => simp [keysA] at h
  | cons p rest ih =>
    obtain ⟨a, b⟩ := p
    by_cases hp : a = k
    · simp [setA, keysA, hp]
    · have hm : k ∈ keysA rest := by
        rcases List.mem_cons.1 h with he | hm
        · exact absurd he.symm hp
        · exact hm
      simp only [setA, if_neg hp, keysA, List.map_cons]
      exact congrArg (a :: ·) (ih hm)

/-- A successful inner edge loop: the adjacency entries gain one `sid` per
occurrence, `sid`'s in-degree gains the dependency count, keys are
unchanged. -/
theorem addDepEdges_ok (steps : List (TaskStep ε)) (sid : String)
    (DS : List String) (adj : List (String × List String))
    (deg : List (String × Int))
    (hres : ∀ d ∈ DS, d ∈ stepIds steps)
    (hadj : ∀ x ∈ stepIds steps, x ∈ keysA adj)
    (hdeg : sid ∈ keysA deg) :
    ∃ adj' deg',
      addDepEdges (stepMapOf steps) sid DS (adj, deg) = .ok (adj', deg') ∧
      (∀ x, lookupA x adj' =
        (lookupA x adj).map (fun a => a ++ List.replicate (DS.count x) sid)) ∧
      (∀ x, lookupA x deg' =
        if x = sid then
          (lookupA x deg).map (fun v : Int => v + (DS.length : Int))
        else lookupA x deg) ∧
      keysA adj' = keysA adj ∧ keysA deg' = keysA deg := by
  induction DS generalizing adj deg with
  | nil =>
    refine ⟨adj, deg, rfl, ?_, ?_, rfl, rfl⟩
    · intro x
      cases lookupA x adj <;> simp
    · intro x
      by_cases hx : x = sid <;> cases h : lookupA x deg <;> simp [hx, h]
  | cons d DS' ih =>
    have hd : d ∈ stepIds steps := hres d (List.mem_cons_self d DS')
    have hsome : (lookupA d (stepMapOf steps)).isSome :=
      (stepMapOf_isSome_iff steps d).2 hd
    have hdadj : d ∈ keysA adj := hadj d hd
    obtain ⟨a₀, ha₀⟩ := Option.isSome_iff_exists.1 ((lookupA_isSome_iff d adj).2 hdadj)
    obtain ⟨v₀, hv₀⟩ := Option.isSome_iff_exists.1 ((lookupA_isSome_iff sid deg).2 hdeg)
    have hkadj1 : keysA (setA d ((lookupA d adj).getD [] ++ [sid]) adj) = keysA adj :=
      keysA_setA_of_mem _ _ _ hdadj
    have hkdeg1 : keysA (setA sid ((lookupA sid deg).getD 0 + 1) deg) = keysA deg :=
      keysA_setA_of_mem _ _ _ hdeg
    have hstep : addDepEdges (stepMapOf steps) sid (d :: DS') (adj, deg) =
        addDepEdges (stepMapOf steps) sid DS'
          (setA d ((lookupA d adj).getD [] ++ [sid]) adj,
           setA sid ((lookupA sid deg).getD 0 + 1) deg) := by
      simp [addDepEdges, hsome]
    obtain ⟨adj', deg', hok, hA, hD, hKA, hKD⟩ :=
      ih _ _ (fun x hx => hres x (List.mem_cons_of_mem d hx))
        (fun x hx => hkadj1 ▸ hadj x hx) (hkdeg1 ▸ hdeg)
    refine ⟨adj', deg', hstep ▸ hok, ?_, ?_, hKA.trans hkadj1, hKD.trans hkdeg1⟩
    · intro x
      rw [hA x, lookupA_setA]
      by_cases hx : d = x
      · subst hx
        rw [if_pos rfl, ha₀, Option.getD_some]
        simp [List.replicate_succ]
      · rw [if_neg hx, List.count_cons_of_ne (fun h => hx h.symm)]
    · intro x
      rw [hD x, lookupA_setA]
      by_cases hx : x = sid
      · subst hx
        rw [if_pos rfl, hv₀, Option.getD_some, if_pos rfl]
        simp only [Option.map_some', List.length_cons]
        congr 1
        push_cast
        ring
      · rw [if_neg hx, if_neg (fun h => hx h.symm), if_neg hx]

/-- A failing inner edge loop: some dependency id is unresolvable, and the
loop reports the first such id. -/
theorem addDepEdges_err (steps : List (TaskStep ε)) (sid : String)
    (DS : List String) (g : List (String × List String) × List (String × Int))
    (hbad : ∃ d ∈ DS, ¬ d ∈ stepIds steps) :
    ∃ d, ¬ d ∈ stepIds steps ∧
      addDepEdges (stepMapOf steps) sid DS g = .error (depNotFoundMsg d) := by
  induction DS generalizing g with
  | nil => simp at hbad
  | cons d DS' ih =>
    by_cases hd : d ∈ stepIds steps
    · have hsome : (lookupA d (stepMapOf steps)).isSome :=
        (stepMapOf_isSome_iff steps d).2 hd
      have hbad' : ∃ e ∈ DS', ¬ e ∈ stepIds steps := by
        rcases hbad with ⟨e, he, hne⟩
        rcases List.mem_cons.1 he with rfl | hm
        · exact absurd hd hne
        · exact ⟨e, hm, hne⟩
      obtain ⟨e, hne, herr⟩ := ih _ hbad'
      exact ⟨e, hne, by simpa [addDepEdges, hsome] using herr⟩
    · have hsome : (lookupA d (stepMapOf steps)).isSome = false := by
        rw [Bool.eq_false_iff]
        exact fun h => hd ((stepMapOf_isSome_iff steps d).1 h)
      exact ⟨d, hd, by simp [addDepEdges, hsome]⟩

/-- The per-id dependency-count added to the in-degree of `x` by the steps
of `SS`. -/
def degAdd (SS : List (TaskStep ε)) (x : String) : Nat :=
  ((SS.filter (fun s => s.id = x)).flatMap TaskStep.dependencies).length

theorem succOf_cons (s : TaskStep ε) (SS : List (TaskStep ε)) (x : String) :
    succOf (s :: SS) x =
      List.replicate (s.dependencies.count x) s.id ++ succOf SS x := rfl

theorem degAdd_cons (s : TaskStep ε) (SS : List (TaskStep ε)) (x : String) :
    degAdd (s :: SS) x =
      (if s.id = x then s.dependencies.length else 0) + degAdd SS x := by
  by_cases h : s.id = x <;>
    simp [degAdd, List.filter_cons, h]

/-- A successful outer edge loop, cumulatively. -/
theorem addAllEdges_ok (steps : List (TaskStep ε))
    (SS : List (TaskStep ε)) (adj : List (String × List String))
    (deg : List (String × Int))
    (hres : ∀ s ∈ SS, ∀ d ∈ s.dependencies, d ∈ stepIds steps)
    (hsid : ∀ s ∈ SS, s.id ∈ stepIds steps)
    (hadj : ∀ x ∈ stepIds steps, x ∈ keysA adj)
    (hdeg : ∀ x ∈ stepIds steps, x ∈ keysA deg) :
    ∃ adj' deg',
      addAllEdges (stepMapOf steps) SS (adj, deg) = .ok (adj', deg') ∧
      (∀ x, lookupA x adj' = (lookupA x adj).map (fun a => a ++ succOf SS x)) ∧
      (∀ x, lookupA x deg' =
        (lookupA x deg).map (fun v : Int => v + (degAdd SS x : Int))) ∧
      keysA adj' = keysA adj ∧ keysA deg' = keysA deg := by
  induction SS generalizing adj deg with
  | nil =>
    refine ⟨adj, deg, rfl, ?_, ?_, rfl, rfl⟩
    · intro x
      cases lookupA x adj <;> simp [succOf]
    · intro x
      cases lookupA x deg <;> simp [degAdd]
  | cons s SS' ih =>
    obtain ⟨adj1, deg1, hok1, hA1, hD1, hKA1, hKD1⟩ :=
      addDepEdges_ok steps s.id s.dependencies adj deg
        (hres s (List.mem_cons_self s SS'))
        hadj (hdeg s.id (hsid s (List.mem_cons_self s SS')))
    obtain ⟨adj', deg', hok, hA, hD, hKA, hKD⟩ :=
      ih adj1 deg1 (fun t ht => hres t (List.mem_cons_of_mem s ht))
        (fun t ht => hsid t (List.mem_cons_of_mem s ht))
        (fun x hx => hKA1 ▸ hadj x hx) (fun x hx => hKD1 ▸ hdeg x hx)
    have hstep : addAllEdges (stepMapOf steps) (s :: SS') (adj, deg) =
        addAllEdges (stepMapOf steps) SS' (adj1, deg1) := by
      simp [addAllEdges, hok1]
    refine ⟨adj', deg', hstep ▸ hok, ?_, ?_, hKA.trans hKA1, hKD.trans hKD1⟩
    · intro x
      rw [hA x, hA1 x, succOf_cons]
      cases lookupA x adj <;> simp [List.append_assoc]
    · intro x
      rw [hD x, hD1 x, degAdd_cons]
      by_cases hx : x = s.id
      · subst hx
        rw [if_pos rfl, if_pos rfl]
        cases lookupA s.id deg with
        | none => simp
        | some v =>
          simp only [Option.map_some']
          congr 1
          push_cast
          ring
      · rw [if_neg hx, if_neg (fun h : s.id = x => hx h.symm)]
        cases lookupA x deg <;> simp

/-- A failing outer edge loop: reports an unresolvable dependency id. -/
theorem addAllEdges_err (steps : List (TaskStep ε))
    (SS : List (TaskStep ε)) (adj : List (String × List String))
    (deg : List (String × Int))
    (hres : ∀ s ∈ SS, s.id ∈ stepIds steps)
    (hadj : ∀ x ∈ stepIds steps, x ∈ keysA adj)
    (hdeg : ∀ x ∈ stepIds steps, x ∈ keysA deg)
    (hbad : ∃ s ∈ SS, ∃ d ∈ s.dependencies, ¬ d ∈ stepIds steps) :
    ∃ d, ¬ d ∈ stepIds steps ∧
      addAllEdges (stepMapOf steps) SS (adj, deg) = .error (depNotFoundMsg d) := by
  induction SS generalizing adj deg with
  | nil => simp at hbad
  | cons s SS' ih =>
    by_cases hs : ∀ d ∈ s.dependencies, d ∈ stepIds steps
    · obtain ⟨adj1, deg1, hok1, _, _, hKA1, hKD1⟩ :=
        addDepEdges_ok steps s.id s.dependencies adj deg hs hadj
          (hdeg s.id (hres s (List.mem_cons_self s SS')))
      have hbad' : ∃ t ∈ SS', ∃ d ∈ t.dependencies, ¬ d ∈ stepIds steps := by
        rcases hbad with ⟨t, ht, d, hd, hnd⟩
        rcases List.mem_cons.1 ht with rfl | hm
        · exact absurd (hs d hd) hnd
        · exact ⟨t, hm, d, hd, hnd⟩
      obtain ⟨d, hnd, herr⟩ := ih adj1 deg1
        (fun t ht => hres t (List.mem_cons_of_mem s ht))
        (fun x hx => hKA1 ▸ hadj x hx) (fun x hx => hKD1 ▸ hdeg x hx) hbad'
      refine ⟨d, hnd, ?_⟩
      simpa [addAllEdges, hok1] using herr
    · push_neg at hs
      obtain ⟨d, hnd, herr⟩ :=
        addDepEdges_err steps s.id s.dependencies (adj, deg)
          (by simpa using hs)
      exact ⟨d, hnd, by simp [addAllEdges, herr]⟩

theorem addDepEdges_ok_sound (sm : List (String × TaskStep ε)) (sid : String)
    (DS : List String) (g g' : List (String × List String) × List (String × Int))
    (h : addDepEdges sm sid DS g = .ok g') :
    ∀ d ∈ DS, (lookupA d sm).isSome := by
  induction DS generalizing g with
  | nil => simp
  | cons d DS' ih =>
    by_cases hd : (lookupA d sm).isSome
    · intro e he
      have h' : addDepEdges sm sid DS'
          (setA d ((lookupA d g.1).getD [] ++ [sid]) g.1,
           setA sid ((lookupA sid g.2).getD 0 + 1) g.2) = .ok g' := by
        simpa [addDepEdges, hd] using h
      rcases List.mem_cons.1 he with rfl | hm
      · exact hd
      · exact ih _ h' e hm
    · exfalso
      have hd' : (lookupA d sm).isSome = false := by
        rw [Bool.eq_false_iff]; exact hd
      simp [addDepEdges, hd'] at h

/-- A successful outer edge loop implies every dependency resolves. -/
theorem addAllEdges_ok_sound (steps : List (TaskStep ε))
    (SS : List (TaskStep ε)) (g g' : List (String × List String) × List (String × Int))
    (h : addAllEdges (stepMapOf steps) SS g = .ok g') :
    ∀ s ∈ SS, ∀ d ∈ s.dependencies, d ∈ stepIds steps := by
  induction SS generalizing g with
  | nil => simp
  | cons s SS' ih =>
    intro t ht d hd
    rcases hinner : addDepEdges (stepMapOf steps) s.id s.dependencies g with e | g1
    · simp [addAllEdges, hinner] at h
    · have hrest : addAllEdges (stepMapOf steps) SS' g1 = .ok g' := by
        simpa [addAllEdges, hinner] using h
      rcases List.mem_cons.1 ht with rfl | hm
      · exact (stepMapOf_isSome_iff steps d).1
          (addDepEdges_ok_sound _ _ _ _ _ hinner d hd)
      · exact ih _ hrest t hm d hd

/-- The full graph construction of `topologicalSort`, for resolvable
inputs: explicit adjacency lists and in-degrees. -/
theorem buildGraph_spec (steps : List (TaskStep ε))
    (hres : Resolvable steps) :
    ∃ adjF degF,
      addAllEdges (stepMapOf steps) steps
        (initAdjacency steps, initInDegree steps) = .ok (adjF, degF) ∧
      (∀ x, lookupA x adjF =
        if x ∈ stepIds steps then some (succOf steps x) else none) ∧
      (∀ x, lookupA x degF =
        if x ∈ stepIds steps then some ((remDeg steps [] x : Int)) else none) ∧
      (keysA degF).Nodup ∧
      (∀ x, x ∈ keysA degF ↔ x ∈ stepIds steps) := by
  obtain ⟨adjF, degF, hok, hA, hD, hKA, hKD⟩ :=
    addAllEdges_ok steps steps (initAdjacency steps) (initInDegree steps)
      hres (fun s hs => List.mem_map_of_mem TaskStep.id hs)
      (fun x hx => (mem_keysA_initAdjacency steps x).2 hx)
      (fun x hx => (mem_keysA_initInDegree steps x).2 hx)
  refine ⟨adjF, degF, hok, ?_, ?_, ?_, ?_⟩
  · intro x
    rw [hA x, lookupA_initAdjacency]
    by_cases hx : x ∈ stepIds steps <;> simp [hx]
  · intro x
    rw [hD x, lookupA_initInDegree]
    by_cases hx : x ∈ stepIds steps <;> simp [hx]
    rw [remDeg]
    rw [depsOf, degAdd]
    simp
  · rw [hKD]
    exact nodup_keysA_initInDegree steps
  · intro x
    rw [hKD]
    exact mem_keysA_initInDegree steps x

-- ============================================================
-- Characterization of the BFS decrement fold
-- ============================================================

/-- Folding `decSucc` over an edge-target list `E` (all targets present in
the degree map): every target key is decremented once per occurrence, and
the nodes appended to the frontier are exactly those whose degree passes
through 0, each exactly once. -/
theorem decFold_spec (E : List String) (inDeg : List (String × Int))
    (nq : List String)
    (hE : ∀ x ∈ E, (lookupA x inDeg).isSome) :
    (∀ x, lookupA x (E.foldl decSucc (inDeg, nq)).1 =
      (lookupA x inDeg).map (fun v : Int => v - (E.count x : Int))) ∧
    ∃ p, (E.foldl decSucc (inDeg, nq)).2 = nq ++ p ∧ p.Nodup ∧
      ∀ x, (x ∈ p ↔
        ∃ v, lookupA x inDeg = some v ∧ 1 ≤ v ∧ v ≤ (E.count x : Int)) := by
  induction E generalizing inDeg nq with
  | nil =>
    refine ⟨?_, [], by simp, List.nodup_nil, ?_⟩
    · intro x
      simp only [List.foldl_nil]
      cases h : lookupA x inDeg <;> simp [h]
    · intro x
      simp only [List.not_mem_nil, false_iff, List.count_nil]
      rintro ⟨v, _, h1, h2⟩
      omega
  | cons e E' ih =>
    obtain ⟨v₀, hv₀⟩ := Option.isSome_iff_exists.1 (hE e (List.mem_cons_self e E'))
    have hdec : decSucc (inDeg, nq) e =
        (setA e (v₀ - 1) inDeg,
         if v₀ - 1 = 0 then nq ++ [e] else nq) := by
      simp [decSucc, hv₀]
    have hE' : ∀ x ∈ E', (lookupA x (setA e (v₀ - 1) inDeg)).isSome := by
      intro x hx
      rw [lookupA_setA]
      by_cases he : e = x
      · simp [he]
      · simp only [if_neg he]
        exact hE x (List.mem_cons_of_mem e hx)
    obtain ⟨hdeg', p', hp', hnd', hmem'⟩ :=
      ih (setA e (v₀ - 1) inDeg) (if v₀ - 1 = 0 then nq ++ [e] else nq) hE'
    have hfold : (e :: E').foldl decSucc (inDeg, nq) =
        E'.foldl decSucc
          (setA e (v₀ - 1) inDeg, if v₀ - 1 = 0 then nq ++ [e] else nq) := by
      rw [List.foldl_cons, hdec]
    constructor
    · intro x
      rw [hfold, hdeg' x, lookupA_setA]
      by_cases he : e = x
      · subst he
        rw [if_pos rfl, hv₀, List.count_cons_self]
        simp only [Option.map_some']
        congr 1
        push_cast
        ring
      · rw [if_neg he, List.count_cons_of_ne (fun h => he h.symm)]
    · refine ⟨(if v₀ - 1 = 0 then [e] else []) ++ p', ?_, ?_, ?_⟩
      · rw [hfold, hp']
        by_cases h0 : v₀ - 1 = 0 <;> simp [h0]
      · rcases Decidable.em (v₀ - 1 = 0) with h0 | h0
        · simp only [if_pos h0, List.singleton_append, List.nodup_cons]
          refine ⟨fun hmem => ?_, hnd'⟩
          obtain ⟨v, hveq, hv1, _⟩ := (hmem' e).1 hmem
          rw [lookupA_setA, if_pos rfl] at hveq
          obtain rfl : v₀ - 1 = v := Option.some_inj.1 hveq
          omega
        · simpa [if_neg h0] using hnd'
      · intro x
        by_cases he : e = x
        · subst he
          simp only [List.mem_append, hmem' e, lookupA_setA, if_pos rfl,
            List.count_cons_self, hv₀]
          constructor
          · rintro (hin | ⟨v, hveq, hv1, hv2⟩)
            · have h0 : v₀ - 1 = 0 := by
                by_contra hne
                simp [if_neg hne] at hin
              exact ⟨v₀, rfl, by omega, by push_cast; omega⟩
            · obtain rfl : v₀ - 1 = v := Option.some_inj.1 hveq
              exact ⟨v₀, rfl, by omega, by push_cast at hv2 ⊢; omega⟩
          · rintro ⟨v, hveq, hv1, hv2⟩
            obtain rfl : v₀ = v := Option.some_inj.1 hveq
            push_cast at hv2
            rcases Decidable.em (v₀ = 1) with h1 | h1
            · exact Or.inl (by simp [h1])
            · refine Or.inr ⟨v₀ - 1, rfl, by omega, by omega⟩
        · simp only [List.mem_append, hmem' x, lookupA_setA, if_neg he,
            List.count_cons_of_ne (fun h => he h.symm)]
          constructor
          · rintro (hin | hex)
            · rcases Decidable.em (v₀ - 1 = 0) with h0 | h0 <;>
                simp [h0] at hin
              exact absurd hin.symm he
            · exact hex
          · exact fun hex => Or.inr hex

/-- Processing a queue is folding `decSucc` over the concatenated
successor lists of its nodes. -/
theorem processQueue_eq_decFold (adj : List (String × List String))
    (queue : List String) (st : List (String × Int) × List String) :
    queue.foldl (processNode adj) st =
      (queue.flatMap (fun d => (lookupA d adj).getD [])).foldl decSucc st := by
  induction queue generalizing st with
  | nil => simp
  | cons d queue' ih =>
    rw [List.foldl_cons, List.flatMap_cons, List.foldl_append]
    exact ih _

-- ============================================================
-- Counting lemmas linking successor lists and in-degrees
-- ============================================================

theorem count_succOf (steps : List (TaskStep ε)) (d x : String) :
    (succOf steps d).count x = (depsOf steps x).count d := by
  induction steps with
  | nil => simp [succOf, depsOf]
  | cons s SS ih =>
    have hd : depsOf (s :: SS) x =
        (if s.id = x then s.dependencies else []) ++ depsOf SS x := by
      by_cases hx : s.id = x <;> simp [depsOf, List.filter_cons, hx]
    rw [succOf_cons, List.count_append, ih, hd, List.count_append,
      List.count_replicate]
    by_cases hx : s.id = x <;> simp [hx]

theorem flatMap_congr_mem {α γ : Type} (l : List α) (f g : α → List γ)
    (h : ∀ a ∈ l, f a = g a) : l.flatMap f = l.flatMap g := by
  induction l with
  | nil => simp
  | cons a l' ih =>
    rw [List.flatMap_cons, List.flatMap_cons,
      h a (List.mem_cons_self a l'),
      ih (fun b hb => h b (List.mem_cons_of_mem a hb))]

theorem sum_ite_mem (a : String) (Q : List String) (hQ : Q.Nodup) :
    ((Q.map (fun d => if a = d then 1 else 0)).sum : Nat) =
      if a ∈ Q then 1 else 0 := by
  induction Q with
  | nil => simp
  | cons q Q' ih =>
    simp only [List.nodup_cons] at hQ
    rw [List.map_cons, List.sum_cons, ih hQ.2]
    by_cases hq : a = q
    · subst hq
      simp [hQ.1]
    · by_cases hm : a ∈ Q' <;> simp [hq, hm, List.mem_cons]

theorem sum_count_cons (a : String) (D : List String) (Q : List String)
    (hQ : Q.Nodup) :
    (Q.map (fun d => (a :: D).count d)).sum =
      (Q.map (fun d => D.count d)).sum + (if a ∈ Q then 1 else 0) := by
  have hmap : Q.map (fun d => (a :: D).count d) =
      Q.map (fun d => D.count d + (if a = d then 1 else 0)) := by
    apply List.map_congr_left
    intro d _
    rw [List.count_cons]
    simp
  have hsplit : ∀ (L : List String),
      (L.map (fun d => D.count d + (if a = d then 1 else 0))).sum =
        (L.map (fun d => D.count d)).sum +
          (L.map (fun d => if a = d then 1 else 0)).sum := by
    intro L
    induction L with
    | nil => simp
    | cons q L' ihL =>
      simp only [List.map_cons, List.sum_cons, ihL]
      omega
  rw [hmap, hsplit, sum_ite_mem a Q hQ]

/-- Splitting the pending-degree filter along a batch `Q` of freshly
processed nodes. -/
theorem filter_split (D P Q : List String) (hQ : Q.Nodup)
    (hdisj : ∀ d ∈ Q, ¬ d ∈ P) :
    (D.filter (fun d => ¬ d ∈ P)).length =
      (D.filter (fun d => ¬ d ∈ (P ++ Q))).length +
        (Q.map (fun d => D.count d)).sum := by
  induction D with
  | nil => simp
  | cons a D' ih =>
    rw [sum_count_cons a D' Q hQ]
    by_cases hP : a ∈ P
    · have haQ : a ∉ Q := fun h => hdisj a h hP
      have hL : ((a :: D').filter (fun d => ¬ d ∈ P)).length =
          (D'.filter (fun d => ¬ d ∈ P)).length := by
        simp [List.filter_cons, hP]
      have hR : ((a :: D').filter (fun d => ¬ d ∈ (P ++ Q))).length =
          (D'.filter (fun d => ¬ d ∈ (P ++ Q))).length := by
        simp [List.filter_cons, hP]
      rw [hL, hR, ih, if_neg haQ]
      omega
    · by_cases haQ : a ∈ Q
      · have hL : ((a :: D').filter (fun d => ¬ d ∈ P)).length =
            (D'.filter (fun d => ¬ d ∈ P)).length + 1 := by
          simp [List.filter_cons, hP]
        have hR : ((a :: D').filter (fun d => ¬ d ∈ (P ++ Q))).length =
            (D'.filter (fun d => ¬ d ∈ (P ++ Q))).length := by
          simp [List.filter_cons, hP, haQ]
        rw [hL, hR, ih, if_pos haQ]
        omega
      · have hL : ((a :: D').filter (fun d => ¬ d ∈ P)).length =
            (D'.filter (fun d => ¬ d ∈ P)).length + 1 := by
          simp [List.filter_cons, hP]
        have hR : ((a :: D').filter (fun d => ¬ d ∈ (P ++ Q))).length =
            (D'.filter (fun d => ¬ d ∈ (P ++ Q))).length + 1 := by
          simp [List.filter_cons, hP, haQ]
        rw [hL, hR, ih, if_neg haQ]
        omega

-- ============================================================
-- The BFS loop invariant
-- ============================================================

theorem remDeg_eq_zero_iff (steps : List (TaskStep ε)) (P : List String)
    (x : String) :
    remDeg steps P x = 0 ↔ ∀ d ∈ depsOf steps x, d ∈ P := by
  rw [remDeg, List.length_eq_zero, List.filter_eq_nil_iff]
  simp

theorem remDeg_zero_mono (steps : List (TaskStep ε)) {P P' : List String}
    (hsub : ∀ d ∈ P, d ∈ P') (x : String)
    (h : remDeg steps P x = 0) : remDeg steps P' x = 0 := by
  rw [remDeg_eq_zero_iff] at h ⊢
  exact fun d hd => hsub d (h d hd)

theorem mem_depsOf (steps : List (TaskStep ε)) (x d : String) :
    d ∈ depsOf steps x ↔ depRel steps d x := by
  simp only [depsOf, depRel, List.mem_flatMap, List.mem_filter]
  constructor
  · rintro ⟨s, ⟨hs, hid⟩, hd⟩
    exact ⟨s, hs, by simpa using hid, hd⟩
  · rintro ⟨s, hs, hid, hd⟩
    exact ⟨s, ⟨hs, by simpa using hid⟩, hd⟩

theorem mem_succOf (steps : List (TaskStep ε)) (d x : String)
    (h : x ∈ succOf steps d) : x ∈ stepIds steps := by
  simp only [succOf, List.mem_flatMap] at h
  obtain ⟨s, hs, hx⟩ := h
  have hxid := List.eq_of_mem_replicate hx
  subst hxid
  exact List.mem_map_of_mem TaskStep.id hs

theorem initialQueue_sublist (m : List (String × Int)) :
    (initialQueue m).Sublist (keysA m) := by
  induction m with
  | nil => simp [initialQueue, keysA]
  | cons p m' ih =>
    rw [initialQueue, List.filterMap_cons]
    by_cases h0 : p.2 = 0
    · simp only [h0, if_pos rfl]
      exact List.Sublist.cons₂ p.1 ih
    · simp only [if_neg h0]
      exact List.Sublist.cons p.1 ih

theorem mem_initialQueue (m : List (String × Int)) (x : String)
    (hnd : (keysA m).Nodup) :
    x ∈ initialQueue m ↔ lookupA x m = some 0 := by
  rw [initialQueue, List.mem_filterMap, lookupA_eq_some_iff_mem x 0 m hnd]
  constructor
  · rintro ⟨⟨a, v⟩, hmem, hav⟩
    by_cases h0 : v = 0
    · subst h0
      rw [if_pos rfl, Option.some_inj] at hav
      subst hav
      exact hmem
    · simp [h0] at hav
  · intro hmem
    exact ⟨(x, 0), hmem, by simp⟩

/-- The invariant of the `while` loop of `topologicalSort`, at loop entry:
`layers` have been emitted, `queue` is the current frontier. -/
structure BfsInv (steps : List (TaskStep ε))
    (inDeg : List (String × Int)) (queue : List String)
    (layers : List (List String)) : Prop where
  sub : ∀ x ∈ layers.flatten ++ queue, x ∈ stepIds steps
  nd : (layers.flatten ++ queue).Nodup
  deg : ∀ x, lookupA x inDeg =
    if x ∈ stepIds steps then some ((remDeg steps layers.flatten x : Int))
    else none
  qzero : ∀ x ∈ queue, remDeg steps layers.flatten x = 0
  ldeps : ∀ i, (hi : i < layers.length) → ∀ x ∈ layers[i],
    remDeg steps ((layers.take i).flatten) x = 0
  compl : ∀ x ∈ stepIds steps, remDeg steps layers.flatten x = 0 →
    x ∈ layers.flatten ++ queue

/-- Emitted nodes have pending degree 0. -/
theorem BfsInv.flatten_zero {steps : List (TaskStep ε)}
    {inDeg : List (String × Int)} {queue : List String}
    {layers : List (List String)}
    (hinv : BfsInv steps inDeg queue layers) :
    ∀ x ∈ layers.flatten, remDeg steps layers.flatten x = 0 := by
  intro x hx
  obtain ⟨L, hL, hxL⟩ := List.mem_flatten.1 hx
  obtain ⟨i, hi, rfl⟩ := List.getElem_of_mem hL
  refine remDeg_zero_mono steps ?_ x (hinv.ldeps i hi x hxL)
  intro d hd
  have : layers.flatten = (layers.take i).flatten ++ (layers.drop i).flatten := by
    rw [← List.flatten_append, List.take_append_drop]
  rw [this]
  exact List.mem_append_left _ hd

/-- One iteration of the BFS loop preserves the invariant, emitting the
current queue as a layer. -/
theorem bfs_round (steps : List (TaskStep ε))
    (adjF : List (String × List String))
    (hadj : ∀ x, lookupA x adjF =
      if x ∈ stepIds steps then some (succOf steps x) else none)
    (inDeg : List (String × Int)) (queue : List String)
    (layers : List (List String))
    (hinv : BfsInv steps inDeg queue layers) :
    BfsInv steps (processQueue adjF inDeg queue).1
      (processQueue adjF inDeg queue).2 (layers ++ [queue]) := by
  classical
  have hEeq : queue.flatMap (fun d => (lookupA d adjF).getD []) =
      queue.flatMap (fun d => succOf steps d) := by
    apply flatMap_congr_mem
    intro d hd
    have hdid : d ∈ stepIds steps := hinv.sub d (List.mem_append_right _ hd)
    rw [hadj d, if_pos hdid]
    rfl
  set E := queue.flatMap (fun d => succOf steps d) with hEdef
  have hPQ : processQueue adjF inDeg queue = E.foldl decSucc (inDeg, []) := by
    rw [processQueue, processQueue_eq_decFold, hEeq]
  have hEkeys : ∀ x ∈ E, (lookupA x inDeg).isSome := by
    intro x hx
    rw [hEdef, List.mem_flatMap] at hx
    obtain ⟨d, hd, hx⟩ := hx
    have hxid : x ∈ stepIds steps := mem_succOf steps d x hx
    rw [hinv.deg x, if_pos hxid]
    rfl
  obtain ⟨hdeg', p, hp, hndp, hmemp⟩ := decFold_spec E inDeg [] hEkeys
  have hsnd : (processQueue adjF inDeg queue).2 = p := by
    rw [hPQ, hp, List.nil_append]
  have hfst : ∀ x, lookupA x (processQueue adjF inDeg queue).1 =
      (lookupA x inDeg).map (fun v : Int => v - (E.count x : Int)) := by
    intro x
    rw [hPQ]
    exact hdeg' x
  have hqnd : queue.Nodup := (List.nodup_append.1 hinv.nd).2.1
  have hdisj : ∀ d ∈ queue, ¬ d ∈ layers.flatten := by
    intro d hd hdJ
    exact (List.nodup_append.1 hinv.nd).2.2 hdJ hd
  have hcount : ∀ x, remDeg steps layers.flatten x =
      remDeg steps (layers.flatten ++ queue) x + E.count x := by
    intro x
    have h1 : E.count x = (queue.map (fun d => (depsOf steps x).count d)).sum := by
      rw [hEdef, List.count_flatMap]
      congr 1
      apply List.map_congr_left
      intro d _
      exact count_succOf steps d x
    rw [h1, remDeg, remDeg]
    exact filter_split (depsOf steps x) layers.flatten queue hqnd hdisj
  have hJ' : (layers ++ [queue]).flatten = layers.flatten ++ queue := by
    rw [List.flatten_append]
    simp
  have hpchar : ∀ x, x ∈ p ↔
      x ∈ stepIds steps ∧ 1 ≤ remDeg steps layers.flatten x ∧
        remDeg steps (layers.flatten ++ queue) x = 0 := by
    intro x
    rw [hmemp x]
    constructor
    · rintro ⟨v, hlv, h1, h2⟩
      by_cases hxid : x ∈ stepIds steps
      · rw [hinv.deg x, if_pos hxid, Option.some_inj] at hlv
        have hc := hcount x
        refine ⟨hxid, ?_, ?_⟩ <;> omega
      · rw [hinv.deg x, if_neg hxid] at hlv
        exact absurd hlv (by simp)
    · rintro ⟨hxid, h1, h0⟩
      have hc := hcount x
      refine ⟨(remDeg steps layers.flatten x : Int), by rw [hinv.deg x, if_pos hxid], ?_, ?_⟩
        <;> omega
  have hJQzero : ∀ x, x ∈ layers.flatten ++ queue → remDeg steps layers.flatten x = 0 := by
    intro x hx
    rcases List.mem_append.1 hx with hxJ | hxq
    · exact hinv.flatten_zero x hxJ
    · exact hinv.qzero x hxq
  refine ⟨?_, ?_, ?_, ?_, ?_, ?_⟩
  · intro x hx
    rw [hsnd, hJ'] at hx
    rcases List.mem_append.1 hx with hxl | hxp
    · exact hinv.sub x hxl
    · exact ((hpchar x).1 hxp).1
  · rw [hsnd, hJ']
    rw [List.nodup_append]
    refine ⟨hinv.nd, hndp, ?_⟩
    intro a haJQ hap
    have h1 := ((hpchar a).1 hap).2.1
    have h0 := hJQzero a haJQ
    omega
  · intro x
    rw [hfst x, hinv.deg x, hJ']
    by_cases hxid : x ∈ stepIds steps
    · rw [if_pos hxid, if_pos hxid, Option.map_some']
      have hc := hcount x
      congr 1
      omega
    · rw [if_neg hxid, if_neg hxid]
      rfl
  · intro x hx
    rw [hsnd] at hx
    rw [hJ']
    exact ((hpchar x).1 hx).2.2
  · intro i hi x hx
    rw [List.length_append, List.length_singleton] at hi
    rcases Nat.lt_or_ge i layers.length with hlt | hge
    · have hget : (layers ++ [queue])[i] = layers[i] :=
        List.getElem_append_left hlt
      have htake : (layers ++ [queue]).take i = layers.take i := by
        rw [List.take_append_eq_append_take]
        have : i - layers.length = 0 := by omega
        rw [this]
        simp
      rw [hget] at hx
      rw [htake]
      exact hinv.ldeps i hlt x hx
    · have hie : i = layers.length := by omega
      subst hie
      have hget : (layers ++ [queue])[layers.length] = queue := by
        rw [List.getElem_append_right (Nat.le_refl _)]
        simp
      have htake : (layers ++ [queue]).take layers.length = layers :=
        List.take_left layers [queue]
      rw [hget] at hx
      rw [htake]
      exact hinv.qzero x hx
  · intro x hxid h0
    rw [hJ'] at h0 ⊢
    rw [hsnd]
    by_cases hz : remDeg steps layers.flatten x = 0
    · exact List.mem_append_left _ (hinv.compl x hxid hz)
    · refine List.mem_append_right _ ((hpchar x).2 ⟨hxid, by omega, h0⟩)

/-- What holds of the emitted layers when the BFS loop exits with an empty
frontier. -/
structure SortSound (steps : List (TaskStep ε))
    (layers : List (List String)) : Prop where
  sub : ∀ x ∈ layers.flatten, x ∈ stepIds steps
  nd : layers.flatten.Nodup
  ldeps : ∀ i, (hi : i < layers.length) → ∀ x ∈ layers[i],
    remDeg steps ((layers.take i).flatten) x = 0
  compl : ∀ x ∈ stepIds steps, remDeg steps layers.flatten x = 0 →
    x ∈ layers.flatten

/-- The BFS loop, run with enough fuel, exits with an empty frontier and
returns layers satisfying `SortSound`, together with the count of emitted
ids. -/
theorem bfsLoop_spec (steps : List (TaskStep ε))
    (adjF : List (String × List String))
    (hadj : ∀ x, lookupA x adjF =
      if x ∈ stepIds steps then some (succOf steps x) else none) :
    ∀ (fuel : Nat) (inDeg : List (String × Int)) (queue : List String)
      (layers : List (List String)),
      BfsInv steps inDeg queue layers →
      steps.length + 1 ≤ fuel + layers.flatten.length →
      ∃ layersF,
        bfsLoop adjF fuel inDeg queue layers layers.flatten.length =
          (layersF, layersF.flatten.length) ∧
        SortSound steps layersF := by
  intro fuel
  induction fuel with
  | zero =>
    intro inDeg queue layers hinv hbound
    exfalso
    have hsp : (layers.flatten ++ queue).Subperm (stepIds steps) :=
      List.subperm_of_subset hinv.nd hinv.sub
    have hlen := hsp.length_le
    rw [List.length_append] at hlen
    have : (stepIds steps).length = steps.length := List.length_map _ _
    omega
  | succ fuel ih =>
    intro inDeg queue layers hinv hbound
    by_cases hq : queue.isEmpty
    · refine ⟨layers, by rw [bfsLoop, if_pos hq], ?_, ?_, ?_, ?_⟩
      · exact fun x hx => hinv.sub x (List.mem_append_left _ hx)
      · exact (List.nodup_append.1 hinv.nd).1
      · exact hinv.ldeps
      · intro x hxid h0
        have := hinv.compl x hxid h0
        rw [List.isEmpty_iff] at hq
        subst hq
        simpa using this
    · have hinv' := bfs_round steps adjF hadj inDeg queue layers hinv
      have hqne : queue ≠ [] := fun h => by simp [h] at hq
      have hql : 1 ≤ queue.length := by
        cases queue with
        | nil => exact absurd rfl hqne
        | cons a q => simp
      have hflat : (layers ++ [queue]).flatten.length =
          layers.flatten.length + queue.length := by
        rw [List.flatten_append, List.length_append]
        simp
      obtain ⟨layersF, hrun, hsound⟩ :=
        ih (processQueue adjF inDeg queue).1 (processQueue adjF inDeg queue).2
          (layers ++ [queue]) hinv' (by omega)
      refine ⟨layersF, ?_, hsound⟩
      rw [bfsLoop, if_neg (by simpa using hq)]
      show bfsLoop adjF fuel (processQueue adjF inDeg queue).1
          (processQueue adjF inDeg queue).2 (layers ++ [queue])
          (layers.flatten.length + queue.length) = (layersF, layersF.flatten.length)
      rw [← hflat]
      exact hrun

-- ============================================================
-- Top-level properties of `topologicalSort`
-- ============================================================

/-- Running `topologicalSort` on a resolvable step list: the BFS produces
sound layers, and the result depends only on the processed count. -/
theorem topologicalSort_run (steps : List (TaskStep ε))
    (hres : Resolvable steps) :
    ∃ layersF, SortSound steps layersF ∧
      topologicalSort steps =
        (if layersF.flatten.length ≠ steps.length then .error circularMsg
         else .ok layersF) := by
  obtain ⟨adjF, degF, hok, hA, hD, hknd, hkmem⟩ := buildGraph_spec steps hres
  have hmemq : ∀ x, x ∈ initialQueue degF ↔ lookupA x degF = some 0 :=
    fun x => mem_initialQueue degF x hknd
  have hinv0 : BfsInv steps degF (initialQueue degF) [] := by
    refine ⟨?_, ?_, ?_, ?_, ?_, ?_⟩
    · intro x hx
      rw [List.flatten_nil, List.nil_append] at hx
      have := (hmemq x).1 hx
      rw [hD x] at this
      by_cases hxid : x ∈ stepIds steps
      · exact hxid
      · rw [if_neg hxid] at this
        exact absurd this (by simp)
    · rw [List.flatten_nil, List.nil_append]
      exact (initialQueue_sublist degF).nodup hknd
    · intro x
      rw [List.flatten_nil]
      exact hD x
    · intro x hx
      rw [List.flatten_nil]
      have := (hmemq x).1 hx
      rw [hD x] at this
      by_cases hxid : x ∈ stepIds steps
      · rw [if_pos hxid, Option.some_inj] at this
        omega
      · rw [if_neg hxid] at this
        exact absurd this (by simp)
    · intro i hi
      simp at hi
    · intro x hxid h0
      rw [List.flatten_nil, List.nil_append]
      rw [List.flatten_nil] at h0
      rw [hmemq x, hD x, if_pos hxid, h0]
      rfl
  obtain ⟨layersF, hrun, hsound⟩ :=
    bfsLoop_spec steps adjF hA (steps.length + 1) degF (initialQueue degF) []
      hinv0 (by simp)
  simp only [List.flatten_nil, List.length_nil] at hrun
  refine ⟨layersF, hsound, ?_⟩
  rw [topologicalSort]
  rw [hok]
  simp only [hrun]

/-- Soundness package for a successful `topologicalSort`. -/
theorem topologicalSort_sound (steps : List (TaskStep ε))
    (layers : List (List String))
    (h : topologicalSort steps = .ok layers) :
    SortSound steps layers ∧ layers.flatten.length = steps.length ∧
      Resolvable steps := by
  rcases hE : addAllEdges (stepMapOf steps) steps
      (initAdjacency steps, initInDegree steps) with e | g
  · rw [topologicalSort, hE] at h
    exact absurd h (by simp)
  · have hres : Resolvable steps :=
      addAllEdges_ok_sound steps steps _ _ hE
    obtain ⟨layersF, hsound, heq⟩ := topologicalSort_run steps hres
    rw [heq] at h
    by_cases hlen : layersF.flatten.length ≠ steps.length
    · rw [if_pos hlen] at h
      exact absurd h (by simp)
    · rw [if_neg hlen] at h
      obtain rfl : layersF = layers := by
        simpa using h
      push_neg at hlen
      exact ⟨hsound, hlen, hres⟩

/-- The concatenated layers of a successful sort are a permutation of the
input step ids. -/
theorem topologicalSort_perm (steps : List (TaskStep ε))
    (layers : List (List String))
    (h : topologicalSort steps = .ok layers) :
    layers.flatten.Perm (stepIds steps) := by
  obtain ⟨hsound, hlen, -⟩ := topologicalSort_sound steps layers h
  have hsp : layers.flatten.Subperm (stepIds steps) :=
    List.subperm_of_subset hsound.nd hsound.sub
  refine hsp.perm_of_length_le ?_
  rw [hlen, stepIds, List.length_map]

/-- A successful sort forces the input ids to be pairwise distinct. -/
theorem topologicalSort_nodup_ids (steps : List (TaskStep ε))
    (layers : List (List String))
    (h : topologicalSort steps = .ok layers) :
    (stepIds steps).Nodup := by
  have hperm := topologicalSort_perm steps layers h
  exact hperm.nodup_iff.1 (topologicalSort_sound steps layers h).1.nd

/-- In the concatenation of the returned layers, every step id occurs
strictly after each of its dependencies. -/
theorem topologicalSort_ordering (steps : List (TaskStep ε))
    (layers : List (List String))
    (h : topologicalSort steps = .ok layers) :
    ∀ s ∈ steps, ∀ d ∈ s.dependencies,
      d ∈ layers.flatten ∧ s.id ∈ layers.flatten ∧
      layers.flatten.indexOf d < layers.flatten.indexOf s.id := by
  obtain ⟨hsound, hlen, hres⟩ := topologicalSort_sound steps layers h
  have hperm := topologicalSort_perm steps layers h
  intro s hs d hd
  have hsid : s.id ∈ layers.flatten :=
    hperm.mem_iff.2 (List.mem_map_of_mem TaskStep.id hs)
  obtain ⟨L, hL, hsL⟩ := List.mem_flatten.1 hsid
  obtain ⟨i, hi, rfl⟩ := List.getElem_of_mem hL
  have hdeps := hsound.ldeps i hi s.id hsL
  have hdmem : d ∈ depsOf steps s.id :=
    (mem_depsOf steps s.id d).2 ⟨s, hs, rfl, hd⟩
  have hdA : d ∈ (layers.take i).flatten :=
    (remDeg_eq_zero_iff steps _ s.id).1 hdeps d hdmem
  have hsplit : layers.flatten =
      (layers.take i).flatten ++ (layers.drop i).flatten := by
    rw [← List.flatten_append, List.take_append_drop]
  have hdflat : d ∈ layers.flatten := by
    rw [hsplit]
    exact List.mem_append_left _ hdA
  have hsB : s.id ∈ (layers.drop i).flatten := by
    refine List.mem_flatten.2 ⟨layers[i], ?_, hsL⟩
    have hlen' : 0 < (layers.drop i).length := by
      rw [List.length_drop]
      omega
    have : (layers.drop i)[0] = layers[i] := by
      rw [List.getElem_drop]
      simp
    rw [← this]
    exact List.getElem_mem hlen'
  have hsnotA : s.id ∉ (layers.take i).flatten := by
    intro hmem
    have hnd := hsound.nd
    rw [hsplit] at hnd
    exact (List.disjoint_of_nodup_append hnd) hmem hsB
  refine ⟨hdflat, hsid, ?_⟩
  rw [hsplit, List.indexOf_append_of_mem hdA,
    List.indexOf_append_of_not_mem hsnotA]
  calc List.indexOf d (layers.take i).flatten
      < (layers.take i).flatten.length := List.indexOf_lt_length.2 hdA
    _ ≤ (layers.take i).flatten.length +
          List.indexOf s.id (layers.drop i).flatten := Nat.le_add_right _ _

/-- A nonempty finite set of ids in which every element has an
`R`-predecessor inside the set contains an `R`-cycle. -/
theorem cycle_of_all_pred {R : String → String → Prop} (U : List String)
    (hne : U ≠ []) (hpred : ∀ x ∈ U, ∃ y ∈ U, R y x) :
    ∃ z, Relation.TransGen R z z := by
  classical
  obtain ⟨u₀, hu₀⟩ := List.exists_mem_of_ne_nil U hne
  have hpred' : ∀ x : {a // a ∈ U}, ∃ y : {a // a ∈ U}, R y.1 x.1 := by
    rintro ⟨x, hx⟩
    obtain ⟨y, hy, hR⟩ := hpred x hx
    exact ⟨⟨y, hy⟩, hR⟩
  choose f hf using hpred'
  let g : Nat → {a // a ∈ U} := fun n => Nat.rec ⟨u₀, hu₀⟩ (fun _ p => f p) n
  have hstep : ∀ n, R (g (n + 1)).1 (g n).1 := fun n => hf (g n)
  have hchain : ∀ i j, i < j → Relation.TransGen R (g j).1 (g i).1 := by
    intro i j hij
    induction j with
    | zero => omega
    | succ m ihm =>
      rcases Nat.lt_or_ge i m with h | h
      · exact (Relation.TransGen.single (hstep m)).trans (ihm h)
      · have hie : i = m := by omega
        subst hie
        exact Relation.TransGen.single (hstep i)
  have hlen : 0 < U.length := List.length_pos.2 hne
  obtain ⟨a, b, hab, heq⟩ :=
    Fintype.exists_ne_map_eq_of_card_lt
      (fun k : Fin (U.length + 1) =>
        (⟨U.indexOf (g k.1).1, List.indexOf_lt_length.2 (g k.1).2⟩ :
          Fin U.length))
      (by simp)
  have hval : (g a.1).1 = (g b.1).1 := by
    have h1 := congrArg Fin.val heq
    exact (List.indexOf_inj (g a.1).2 (g b.1).2).1 h1
  have habv : a.1 ≠ b.1 := fun h => hab (Fin.ext h)
  rcases Nat.lt_or_ge a.1 b.1 with h | h
  · refine ⟨(g b.1).1, ?_⟩
    have chain := hchain a.1 b.1 h
    rw [hval] at chain
    exact chain
  · have h' : b.1 < a.1 := by omega
    refine ⟨(g a.1).1, ?_⟩
    have chain := hchain b.1 a.1 h'
    rw [← hval] at chain
    exact chain

/-- Completeness: a resolvable, acyclic step list with pairwise-distinct
ids is sorted successfully. -/
theorem topologicalSort_complete (steps : List (TaskStep ε))
    (hnd : (stepIds steps).Nodup) (hres : Resolvable steps)
    (hacyc : Acyclic steps) :
    ∃ layers, topologicalSort steps = .ok layers := by
  classical
  obtain ⟨layersF, hsound, heq⟩ := topologicalSort_run steps hres
  have hsub : ∀ x ∈ stepIds steps, x ∈ layersF.flatten := by
    by_contra hmiss
    push_neg at hmiss
    have hUne : (stepIds steps).filter
        (fun x => ¬ x ∈ layersF.flatten) ≠ [] := by
      obtain ⟨x, hxid, hxnot⟩ := hmiss
      intro hnil
      have : x ∈ (stepIds steps).filter (fun x => ¬ x ∈ layersF.flatten) :=
        List.mem_filter.2 ⟨hxid, by simpa using hxnot⟩
      rw [hnil] at this
      simp at this
    have hpredU : ∀ x ∈ (stepIds steps).filter
        (fun x => ¬ x ∈ layersF.flatten),
        ∃ y ∈ (stepIds steps).filter (fun x => ¬ x ∈ layersF.flatten),
          depRel steps y x := by
      intro x hx
      obtain ⟨hxid, hxnot⟩ := List.mem_filter.1 hx
      have hxnot' : ¬ x ∈ layersF.flatten := by simpa using hxnot
      have hrd : remDeg steps layersF.flatten x ≠ 0 := by
        intro h0
        exact hxnot' (hsound.compl x hxid h0)
      have : ∃ d ∈ depsOf steps x, ¬ d ∈ layersF.flatten := by
        by_contra hall
        push_neg at hall
        exact hrd ((remDeg_eq_zero_iff steps _ x).2 hall)
      obtain ⟨d, hdmem, hdnot⟩ := this
      have hdrel : depRel steps d x := (mem_depsOf steps x d).1 hdmem
      have hdid : d ∈ stepIds steps := by
        obtain ⟨s, hs, -, hd⟩ := hdrel
        exact hres s hs d hd
      exact ⟨d, List.mem_filter.2 ⟨hdid, by simpa using hdnot⟩, hdrel⟩
    obtain ⟨z, hz⟩ := cycle_of_all_pred
      ((stepIds steps).filter (fun x => ¬ x ∈ layersF.flatten)) hUne hpredU
    exact hacyc z hz
  have hperm : layersF.flatten.Perm (stepIds steps) := by
    have h1 : layersF.flatten.Subperm (stepIds steps) :=
      List.subperm_of_subset hsound.nd hsound.sub
    have h2 : (stepIds steps).Subperm layersF.flatten :=
      List.subperm_of_subset hnd hsub
    exact h1.antisymm h2
  have hlen : layersF.flatten.length = steps.length := by
    rw [hperm.length_eq, stepIds, List.length_map]
  refine ⟨layersF, ?_⟩
  rw [heq, if_neg (by omega)]

/-- A relation embeddable into `<` on `Nat` has no cycle. -/
theorem no_cycle_of_rank {R : String → String → Prop} (f : String → Nat)
    (h : ∀ u v, R u v → f u < f v) : ∀ x, ¬ Relation.TransGen R x x := by
  have mono : ∀ a b, Relation.TransGen R a b → f a < f b := by
    intro a b hab
    induction hab with
    | single h1 => exact h _ _ h1
    | tail _ hbc ih => exact ih.trans (h _ _ hbc)
  exact fun x hx => lt_irrefl _ (mono x x hx)

/-- An unresolvable dependency makes `topologicalSort` throw the
"not found" error (raised in the edge loop, before any layer is built). -/
theorem topologicalSort_err_notfound (steps : List (TaskStep ε))
    (hbad : ∃ s ∈ steps, ∃ d ∈ s.dependencies, ¬ d ∈ stepIds steps) :
    ∃ d, ¬ d ∈ stepIds steps ∧
      topologicalSort steps = .error (depNotFoundMsg d) := by
  obtain ⟨d, hnd, herr⟩ := addAllEdges_err steps steps
    (initAdjacency steps) (initInDegree steps)
    (fun s hs => List.mem_map_of_mem TaskStep.id hs)
    (fun x hx => (mem_keysA_initAdjacency steps x).2 hx)
    (fun x hx => (mem_keysA_initInDegree steps x).2 hx)
    hbad
  refine ⟨d, hnd, ?_⟩
  rw [topologicalSort, herr]

/-- A resolvable but cyclic step list makes `topologicalSort` throw the
circular-dependency error. -/
theorem topologicalSort_err_cycle (steps : List (TaskStep ε))
    (hres : Resolvable steps)
    (hcyc : ∃ x, Relation.TransGen (depRel steps) x x) :
    topologicalSort steps = .error circularMsg := by
  obtain ⟨layersF, hsound, heq⟩ := topologicalSort_run steps hres
  by_cases hlen : layersF.flatten.length ≠ steps.length
  · rw [heq, if_pos hlen]
  · exfalso
    have hok : topologicalSort steps = .ok layersF := by
      rw [heq, if_neg hlen]
    have hord := topologicalSort_ordering steps layersF hok
    obtain ⟨x, hx⟩ := hcyc
    refine no_cycle_of_rank (fun y => layersF.flatten.indexOf y) ?_ x hx
    rintro u v ⟨s, hs, rfl, hu⟩
    exact (hord s hs u hu).2.2

-- ============================================================
-- Claims about `topologicalSort` (C1, C4, C5)
-- ============================================================

/-- C1.  For every list of steps whose dependency ids all refer to steps
in the list (with pairwise-distinct ids, the standing data-model
invariant) and whose dependency relation is acyclic, `topologicalSort`
returns a list of layers such that, in the concatenation of the layers,
every step id appears strictly after every id in that step's
dependencies. -/
theorem C1_layering_correct {ε : Type} (steps : List (TaskStep ε))
    (hnd : (stepIds steps).Nodup)
    (hres : Resolvable steps)
    (hacyc : Acyclic steps) :
    ∃ layers, topologicalSort steps = .ok layers ∧
      ∀ s ∈ steps, ∀ d ∈ s.dependencies,
        d ∈ layers.flatten ∧ s.id ∈ layers.flatten ∧
        layers.flatten.indexOf d < layers.flatten.indexOf s.id := by
  obtain ⟨layers, hok⟩ := topologicalSort_complete steps hnd hres hacyc
  exact ⟨layers, hok, topologicalSort_ordering steps layers hok⟩

/-- C4.  For every list of steps whose dependency ids all resolve but
whose dependency relation contains a cycle, `topologicalSort` throws the
circular-dependency error (after the frontier loop, by the count
comparison) and returns no layers. -/
theorem C4_cycle_detected {ε : Type} (steps : List (TaskStep ε))
    (hres : Resolvable steps)
    (hcyc : ∃ x, Relation.TransGen (depRel steps) x x) :
    topologicalSort steps = .error circularMsg :=
  topologicalSort_err_cycle steps hres hcyc

/-- C5.  For every list of steps in which some step declares a dependency
id matching no step id, `topologicalSort` throws the "not found" error for
such an id — in the edge loop, before any layer is computed. -/
theorem C5_unknown_dependency {ε : Type} (steps : List (TaskStep ε))
    (hbad : ∃ s ∈ steps, ∃ d ∈ s.dependencies, ¬ d ∈ stepIds steps) :
    ∃ d, ¬ d ∈ stepIds steps ∧
      topologicalSort steps = .error (depNotFoundMsg d) :=
  topologicalSort_err_notfound steps hbad

/-- A minimal concrete step for witnesses. -/
def wStep (i : String) (deps : List String) : TaskStep Unit :=
  { id := i, type := .content_generation, dependencies := deps,
    parameters := [], status := .pending, result := none }

theorem C1_layering_correct_witness :
    ∃ layers,
      topologicalSort [wStep "a" [], wStep "b" ["a"]] = .ok layers ∧
      ∀ s ∈ [wStep "a" [], wStep "b" ["a"]], ∀ d ∈ s.dependencies,
        d ∈ layers.flatten ∧ s.id ∈ layers.flatten ∧
        layers.flatten.indexOf d < layers.flatten.indexOf s.id := by
  refine C1_layering_correct _ (by decide) (by unfold Resolvable; decide) ?_
  refine no_cycle_of_rank (fun x => if x = "b" then 1 else 0) ?_
  rintro u v ⟨s, hs, rfl, hu⟩
  rcases List.mem_cons.1 hs with rfl | hs2
  · simp [wStep] at hu
  · rcases List.mem_cons.1 hs2 with rfl | hs3
    · simp only [wStep, List.mem_singleton] at hu
      subst hu
      decide
    · simp at hs3

theorem C4_cycle_detected_witness :
    topologicalSort [wStep "a" ["b"], wStep "b" ["a"]] =
      .error circularMsg := by
  refine C4_cycle_detected _ (by unfold Resolvable; decide) ?_
  have e_ab : depRel [wStep "a" ["b"], wStep "b" ["a"]] "a" "b" :=
    ⟨wStep "b" ["a"], List.mem_cons_of_mem _ (List.mem_cons_self _ _),
      rfl, by decide⟩
  have e_ba : depRel [wStep "a" ["b"], wStep "b" ["a"]] "b" "a" :=
    ⟨wStep "a" ["b"], List.mem_cons_self _ _, rfl, by decide⟩
  exact ⟨"a", Relation.TransGen.tail (Relation.TransGen.single e_ab) e_ba⟩

theorem C5_unknown_dependency_witness :
    ∃ d, ¬ d ∈ stepIds [wStep "a" ["zz"]] ∧
      topologicalSort [wStep "a" ["zz"]] = .error (depNotFoundMsg d) :=
  C5_unknown_dependency _
    ⟨wStep "a" ["zz"], List.mem_cons_self _ _, "zz", by decide, by decide⟩

-- ============================================================
-- Execution: `findStep` / `updateStep` under unique ids
-- ============================================================

/-- A step status is terminal when it is `completed` or `failed`. -/
def TerminalStatus (st : TaskStatus) : Prop :=
  st = .completed ∨ st = .failed

theorem eq_of_stepIds_nodup (steps : List (TaskStep ε))
    (hnd : (stepIds steps).Nodup) {s t : TaskStep ε}
    (hs : s ∈ steps) (ht : t ∈ steps) (h : s.id = t.id) : s = t := by
  induction steps with
  | nil => simp at hs
  | cons u rest ih =>
    simp only [stepIds, List.map_cons, List.nodup_cons] at hnd
    rcases List.mem_cons.1 hs with rfl | hs' <;>
      rcases List.mem_cons.1 ht with rfl | ht'
    · rfl
    · exact absurd (h ▸ List.mem_map_of_mem TaskStep.id ht') hnd.1
    · exact absurd (h ▸ List.mem_map_of_mem TaskStep.id hs') hnd.1
    · exact ih hnd.2 hs' ht'

theorem updateFirstStep_eq_map (x : String) (f : TaskStep ε → TaskStep ε)
    (steps : List (TaskStep ε)) (hnd : (stepIds steps).Nodup) :
    updateFirstStep x f steps =
      steps.map (fun s => if s.id = x then f s else s) := by
  induction steps with
  | nil => rfl
  | cons u rest ih =>
    simp only [stepIds, List.map_cons, List.nodup_cons] at hnd
    by_cases hu : u.id = x
    · rw [updateFirstStep, if_pos hu, List.map_cons, if_pos hu]
      congr 1
      have : ∀ s ∈ rest, (if s.id = x then f s else s) = s := by
        intro s hs
        rw [if_neg]
        intro hsx
        exact hnd.1 (hu ▸ hsx ▸ List.mem_map_of_mem TaskStep.id hs)
      rw [List.map_congr_left this]
      exact (List.map_id rest).symm
    · rw [updateFirstStep, if_neg hu, List.map_cons, if_neg hu, ih hnd.2]

theorem updateStep_eq_map (x : String) (f : TaskStep ε → TaskStep ε)
    (steps : List (TaskStep ε)) (hnd : (stepIds steps).Nodup) :
    updateStep x f steps =
      steps.map (fun s => if s.id = x then f s else s) := by
  have hrev : (stepIds steps.reverse).Nodup := by
    rw [stepIds, List.map_reverse, List.nodup_reverse]
    exact hnd
  rw [updateStep, updateFirstStep_eq_map x f steps.reverse hrev,
    List.map_reverse, List.reverse_reverse]

theorem updateStep_stepIds (x : String) (f : TaskStep ε → TaskStep ε)
    (steps : List (TaskStep ε)) (hnd : (stepIds steps).Nodup)
    (hf : ∀ s, (f s).id = s.id) :
    stepIds (updateStep x f steps) = stepIds steps := by
  rw [updateStep_eq_map x f steps hnd, stepIds, stepIds, List.map_map]
  apply List.map_congr_left
  intro s _
  by_cases hs : s.id = x <;> simp [hs, hf]

theorem findStep_eq_none (x : String) (steps : List (TaskStep ε))
    (hx : ¬ x ∈ stepIds steps) : findStep x steps = none := by
  rw [findStep, List.find?_eq_none]
  intro s hs
  simp only [decide_eq_true_eq]
  intro hsx
  exact hx (hsx ▸ List.mem_map_of_mem TaskStep.id (List.mem_reverse.1 hs))

theorem findStep_eq_some (steps : List (TaskStep ε))
    (hnd : (stepIds steps).Nodup) (s : TaskStep ε) (hs : s ∈ steps) :
    findStep s.id steps = some s := by
  have hsome : (steps.reverse.find? (fun t => t.id = s.id)).isSome := by
    rw [List.find?_isSome]
    exact ⟨s, List.mem_reverse.2 hs, by simp⟩
  obtain ⟨t, ht⟩ := Option.isSome_iff_exists.1 hsome
  have htmem : t ∈ steps := List.mem_reverse.1 (List.mem_of_find?_eq_some ht)
  have htid : t.id = s.id := by simpa using List.find?_some ht
  rw [findStep, ht]
  exact congrArg some (eq_of_stepIds_nodup steps hnd htmem hs htid)

theorem updateStep_mem_ne (x y : String) (hxy : y ≠ x)
    (f : TaskStep ε → TaskStep ε) (steps : List (TaskStep ε))
    (hnd : (stepIds steps).Nodup) (hf : ∀ s, (f s).id = s.id) :
    ∀ s : TaskStep ε,
      (s ∈ updateStep x f steps ∧ s.id = y) ↔ (s ∈ steps ∧ s.id = y) := by
  intro s
  rw [updateStep_eq_map x f steps hnd]
  constructor
  · rintro ⟨hm, hy⟩
    obtain ⟨t, ht, hgt⟩ := List.mem_map.1 hm
    by_cases htx : t.id = x
    · rw [if_pos htx] at hgt
      have hsx : s.id = x := by rw [← hgt, hf t, htx]
      have : y = x := by rw [← hy, hsx]
      exact absurd this hxy
    · rw [if_neg htx] at hgt
      exact ⟨hgt ▸ ht, hy⟩
  · rintro ⟨ht, hy⟩
    refine ⟨?_, hy⟩
    have : (if s.id = x then f s else s) = s := if_neg (hy ▸ hxy)
    exact this ▸ List.mem_map_of_mem _ ht

theorem updateStep_target (x : String) (f : TaskStep ε → TaskStep ε)
    (steps : List (TaskStep ε)) (hnd : (stepIds steps).Nodup) :
    ∀ s ∈ updateStep x f steps, s.id = x → ∃ t ∈ steps, t.id = x ∧ s = f t := by
  intro s hm hx
  rw [updateStep_eq_map x f steps hnd] at hm
  obtain ⟨t, ht, hgt⟩ := List.mem_map.1 hm
  by_cases htx : t.id = x
  · rw [if_pos htx] at hgt
    exact ⟨t, ht, htx, hgt.symm⟩
  · rw [if_neg htx] at hgt
    exact absurd (hgt ▸ hx) htx

/-- The step-record updates used by the executor loop all preserve ids. -/
theorem execUpdater_id (st : TaskStatus) (r : Option (StepResult ε)) :
    ∀ s : TaskStep ε, ({ s with status := st, result := r } : TaskStep ε).id = s.id :=
  fun _ => rfl

/-- The synchronous dispatch pass over one layer, characterized. -/
theorem dispatch_fold (executor : StepExecutor ε) (layer : List String) :
    ∀ (st0 : ExecState ε) (pend0 : List (String × Except String ε)),
    (stepIds st0.steps).Nodup → layer.Nodup →
    stepIds (layer.foldl (dispatchStep executor) (st0, pend0)).1.steps =
        stepIds st0.steps ∧
    (∃ pnew, (layer.foldl (dispatchStep executor) (st0, pend0)).2 =
        pend0 ++ pnew ∧ (pnew.map Prod.fst).Sublist layer) ∧
    (∃ inew, (layer.foldl (dispatchStep executor) (st0, pend0)).1.invoked =
        st0.invoked ++ inew ∧ inew.Sublist layer) ∧
    (∀ x ∈ layer, x ∈ stepIds st0.steps →
      (∀ s ∈ (layer.foldl (dispatchStep executor) (st0, pend0)).1.steps,
          s.id = x → s.status = .failed) ∨
      (∃ rr, (x, rr) ∈ (layer.foldl (dispatchStep executor) (st0, pend0)).2)) ∧
    (∀ y, ¬ y ∈ layer → ∀ s : TaskStep ε,
      (s ∈ (layer.foldl (dispatchStep executor) (st0, pend0)).1.steps ∧
        s.id = y) ↔ (s ∈ st0.steps ∧ s.id = y)) := by
  induction layer with
  | nil =>
    intro st0 pend0 hnd _
    refine ⟨rfl, ⟨[], by simp, by simp⟩, ⟨[], by simp, by simp⟩, ?_, ?_⟩
    · intro x hx
      simp at hx
    · intro y _ s
      simp
  | cons z rest ih =>
    intro st0 pend0 hnd hLnd
    simp only [List.nodup_cons] at hLnd
    by_cases hz : z ∈ stepIds st0.steps
    · obtain ⟨sz, hszmem, hszid⟩ := List.mem_map.1 hz
      have hfind : findStep z st0.steps = some sz := by
        rw [← hszid]
        exact findStep_eq_some st0.steps hnd sz hszmem
      by_cases hdep : sz.dependencies.any (fun d => st0.failedStepIds.contains d)
      · -- dependency-failed branch: mark `failed`, no executor call
        have hstep : (z :: rest).foldl (dispatchStep executor) (st0, pend0) =
            rest.foldl (dispatchStep executor)
              ({ steps := updateStep z markDepFailed st0.steps,
                 failedStepIds := st0.failedStepIds ++ [z],
                 invoked := st0.invoked }, pend0) := by
          rw [List.foldl_cons]
          simp only [dispatchStep, hfind, hdep, if_true]
        set st1 : ExecState ε :=
          { steps := updateStep z markDepFailed st0.steps,
            failedStepIds := st0.failedStepIds ++ [z],
            invoked := st0.invoked } with hst1
        have hids1 : stepIds st1.steps = stepIds st0.steps :=
          updateStep_stepIds z _ st0.steps hnd (fun _ => rfl)
        obtain ⟨hidsF, ⟨pnew, hpnew, hpsub⟩, ⟨inew, hinew, hisub⟩, hproc, hpres⟩ :=
          ih st1 pend0 (hids1 ▸ hnd) hLnd.2
        rw [hstep]
        refine ⟨hidsF.trans hids1, ⟨pnew, hpnew, hpsub.cons z⟩,
          ⟨inew, hinew, hisub.cons z⟩, ?_, ?_⟩
        · intro x hx hxid
          rcases List.mem_cons.1 hx with rfl | hxr
          · left
            intro s hsmem hsid
            have h1 := (hpres x hLnd.1 s).1 ⟨hsmem, hsid⟩
            obtain ⟨t, _, htid, rfl⟩ :=
              updateStep_target x _ st0.steps hnd s h1.1 h1.2
            rfl
          · exact hproc x hxr (hids1 ▸ hxid)
        · intro y hy s
          have hyz : y ≠ z := fun he => hy (he ▸ List.mem_cons_self z rest)
          have hyr : ¬ y ∈ rest := fun hm => hy (List.mem_cons_of_mem z hm)
          rw [hpres y hyr s]
          exact updateStep_mem_ne z y hyz markDepFailed st0.steps hnd
            (fun _ => rfl) s
      · -- run branch: mark `running`, invoke the executor
        have hstep : (z :: rest).foldl (dispatchStep executor) (st0, pend0) =
            rest.foldl (dispatchStep executor)
              ({ steps := updateStep z markRunning st0.steps,
                 failedStepIds := st0.failedStepIds,
                 invoked := st0.invoked ++ [z] },
               pend0 ++ [(z, executor (markRunning sz))]) := by
          have hdep' : (sz.dependencies.any
              (fun d => st0.failedStepIds.contains d)) = false := by
            rw [Bool.eq_false_iff]
            exact hdep
          rw [List.foldl_cons]
          simp only [dispatchStep, hfind, hdep', Bool.false_eq_true, if_false]
        set st1 : ExecState ε :=
          { steps := updateStep z markRunning st0.steps,
            failedStepIds := st0.failedStepIds,
            invoked := st0.invoked ++ [z] } with hst1
        set pend1 := pend0 ++ [(z, executor (markRunning sz))]
          with hpend1
        have hids1 : stepIds st1.steps = stepIds st0.steps :=
          updateStep_stepIds z _ st0.steps hnd (fun _ => rfl)
        obtain ⟨hidsF, ⟨pnew, hpnew, hpsub⟩, ⟨inew, hinew, hisub⟩, hproc, hpres⟩ :=
          ih st1 pend1 (hids1 ▸ hnd) hLnd.2
        rw [hstep]
        refine ⟨hidsF.trans hids1,
          ⟨(z, executor (markRunning sz)) :: pnew, ?_, ?_⟩,
          ⟨z :: inew, ?_, ?_⟩, ?_, ?_⟩
        · rw [hpnew, hpend1]
          simp
        · simpa using hpsub.cons₂ z
        · rw [hinew, hst1]
          simp
        · exact hisub.cons₂ z
        · intro x hx hxid
          rcases List.mem_cons.1 hx with rfl | hxr
          · right
            refine ⟨executor (markRunning sz), ?_⟩
            rw [hpnew]
            exact List.mem_append_left _ (by simp [hpend1])
          · exact hproc x hxr (hids1 ▸ hxid)
        · intro y hy s
          have hyz : y ≠ z := fun he => hy (he ▸ List.mem_cons_self z rest)
          have hyr : ¬ y ∈ rest := fun hm => hy (List.mem_cons_of_mem z hm)
          rw [hpres y hyr s]
          exact updateStep_mem_ne z y hyz markRunning st0.steps hnd
            (fun _ => rfl) s
    · -- unreachable for sorted layers: unknown id, dispatch is a no-op
      have hfind : findStep z st0.steps = none := findStep_eq_none z st0.steps hz
      have hstep : (z :: rest).foldl (dispatchStep executor) (st0, pend0) =
          rest.foldl (dispatchStep executor) (st0, pend0) := by
        rw [List.foldl_cons]
        simp only [dispatchStep, hfind]
      obtain ⟨hidsF, ⟨pnew, hpnew, hpsub⟩, ⟨inew, hinew, hisub⟩, hproc, hpres⟩ :=
        ih st0 pend0 hnd hLnd.2
      rw [hstep]
      refine ⟨hidsF, ⟨pnew, hpnew, hpsub.cons z⟩, ⟨inew, hinew, hisub.cons z⟩,
        ?_, ?_⟩
      · intro x hx hxid
        rcases List.mem_cons.1 hx with rfl | hxr
        · exact absurd hxid hz
        · exact hproc x hxr hxid
      · intro y hy s
        exact hpres y (fun hm => hy (List.mem_cons_of_mem z hm)) s

/-- The settlement pass at the `Promise.all` barrier, characterized. -/
theorem settle_fold (pend : List (String × Except String ε)) :
    ∀ st0 : ExecState ε, (stepIds st0.steps).Nodup →
      (pend.map Prod.fst).Nodup →
    stepIds ((pend.foldl settleStep st0).steps) = stepIds st0.steps ∧
    (pend.foldl settleStep st0).invoked = st0.invoked ∧
    (∀ q ∈ pend, ∀ s ∈ (pend.foldl settleStep st0).steps, s.id = q.1 →
      TerminalStatus s.status) ∧
    (∀ y, (∀ r : Except String ε, ¬ (y, r) ∈ pend) → ∀ s : TaskStep ε,
      (s ∈ (pend.foldl settleStep st0).steps ∧ s.id = y) ↔
        (s ∈ st0.steps ∧ s.id = y)) := by
  induction pend with
  | nil =>
    intro st0 hnd _
    exact ⟨rfl, rfl, by simp, fun y _ s => Iff.rfl⟩
  | cons q rest ih =>
    obtain ⟨x, r⟩ := q
    intro st0 hnd hpnd
    simp only [List.map_cons, List.nodup_cons] at hpnd
    obtain ⟨f, hfid, hfsteps, hfinv, hfterm⟩ :
        ∃ f : TaskStep ε → TaskStep ε, (∀ s, (f s).id = s.id) ∧
          (settleStep st0 (x, r)).steps = updateStep x f st0.steps ∧
          (settleStep st0 (x, r)).invoked = st0.invoked ∧
          (∀ t, TerminalStatus (f t).status) := by
      cases r with
      | ok v => exact ⟨markCompleted v, fun _ => rfl, rfl, rfl,
          fun t => Or.inl rfl⟩
      | error m => exact ⟨markFailed m, fun _ => rfl, rfl, rfl,
          fun t => Or.inr rfl⟩
    have hids1 : stepIds (settleStep st0 (x, r)).steps = stepIds st0.steps := by
      rw [hfsteps]
      exact updateStep_stepIds x f st0.steps hnd hfid
    have hfold : ((x, r) :: rest).foldl settleStep st0 =
        rest.foldl settleStep (settleStep st0 (x, r)) := List.foldl_cons _ _
    obtain ⟨hidsF, hinvF, htermF, hpresF⟩ :=
      ih (settleStep st0 (x, r)) (hids1 ▸ hnd) hpnd.2
    rw [hfold]
    refine ⟨hidsF.trans hids1, hinvF.trans hfinv, ?_, ?_⟩
    · intro q hq s hs hsid
      rcases List.mem_cons.1 hq with rfl | hqr
      · have hnotr : ∀ r' : Except String ε, ¬ (x, r') ∈ rest := by
          intro r' hmem
          exact hpnd.1 (List.mem_map_of_mem Prod.fst hmem)
        have h1 := (hpresF x hnotr s).1 ⟨hs, hsid⟩
        rw [hfsteps] at h1
        obtain ⟨t, _, _, rfl⟩ :=
          updateStep_target x f st0.steps hnd s h1.1 h1.2
        exact hfterm t
      · exact htermF q hqr s hs hsid
    · intro y hy s
      have hyx : y ≠ x := by
        rintro rfl
        exact hy r (List.mem_cons_self _ _)
      have hyr : ∀ r' : Except String ε, ¬ (y, r') ∈ rest :=
        fun r' hmem => hy r' (List.mem_cons_of_mem _ hmem)
      rw [hpresF y hyr s, hfsteps]
      exact updateStep_mem_ne x y hyx f st0.steps hnd hfid s

/-- One layer of execution: ids are preserved, the executor log grows by a
sub-list of the layer, every known id of the layer ends terminal, steps
outside the layer are untouched. -/
theorem runLayer_spec (executor : StepExecutor ε) (st0 : ExecState ε)
    (layer : List String) (hnd : (stepIds st0.steps).Nodup)
    (hL : layer.Nodup) :
    stepIds (runLayer executor st0 layer).steps = stepIds st0.steps ∧
    (∃ inew, (runLayer executor st0 layer).invoked = st0.invoked ++ inew ∧
      inew.Sublist layer) ∧
    (∀ x ∈ layer, x ∈ stepIds st0.steps →
      ∀ s ∈ (runLayer executor st0 layer).steps, s.id = x →
        TerminalStatus s.status) ∧
    (∀ y, ¬ y ∈ layer → ∀ s : TaskStep ε,
      (s ∈ (runLayer executor st0 layer).steps ∧ s.id = y) ↔
        (s ∈ st0.steps ∧ s.id = y)) := by
  obtain ⟨hids1, ⟨pnew, hpnew, hpsub⟩, ⟨inew, hinew, hisub⟩, hproc, hpres1⟩ :=
    dispatch_fold executor layer st0 [] hnd hL
  have hrl : runLayer executor st0 layer =
      (layer.foldl (dispatchStep executor) (st0, [])).2.foldl settleStep
        (layer.foldl (dispatchStep executor) (st0, [])).1 := rfl
  have hpnew' : (layer.foldl (dispatchStep executor) (st0, [])).2 = pnew := by
    rw [hpnew, List.nil_append]
  have hpnd : (pnew.map Prod.fst).Nodup := hpsub.nodup hL
  obtain ⟨hids2, hinv2, hterm2, hpres2⟩ :=
    settle_fold pnew (layer.foldl (dispatchStep executor) (st0, [])).1
      (hids1 ▸ hnd) hpnd
  rw [hrl, hpnew']
  refine ⟨hids2.trans hids1, ⟨inew, hinv2.trans hinew, hisub⟩, ?_, ?_⟩
  · intro x hx hxid
    by_cases hpend : ∃ rr, (x, rr) ∈ pnew
    · obtain ⟨rr, hrr⟩ := hpend
      exact hterm2 (x, rr) hrr
    · push_neg at hpend
      intro s hs hsid
      have h1 := (hpres2 x hpend s).1 ⟨hs, hsid⟩
      rcases hproc x hx hxid with hfail | ⟨rr, hrr⟩
      · exact Or.inr (hfail s h1.1 h1.2)
      · rw [hpnew'] at hrr
        exact absurd hrr (hpend rr)
  · intro y hy s
    have hynop : ∀ r : Except String ε, ¬ (y, r) ∈ pnew := by
      intro r hmem
      exact hy (hpsub.subset (List.mem_map_of_mem Prod.fst hmem))
    rw [hpres2 y hynop s]
    exact hpres1 y hy s

/-- All layers of execution. -/
theorem runLayers_spec (executor : StepExecutor ε)
    (layers : List (List String)) :
    ∀ st0 : ExecState ε, (stepIds st0.steps).Nodup →
      layers.flatten.Nodup →
    stepIds (runLayers executor st0 layers).steps = stepIds st0.steps ∧
    (∃ inew, (runLayers executor st0 layers).invoked = st0.invoked ++ inew ∧
      inew.Sublist layers.flatten) ∧
    (∀ x ∈ layers.flatten, x ∈ stepIds st0.steps →
      ∀ s ∈ (runLayers executor st0 layers).steps, s.id = x →
        TerminalStatus s.status) ∧
    (∀ y, ¬ y ∈ layers.flatten → ∀ s : TaskStep ε,
      (s ∈ (runLayers executor st0 layers).steps ∧ s.id = y) ↔
        (s ∈ st0.steps ∧ s.id = y)) := by
  induction layers with
  | nil =>
    intro st0 hnd _
    exact ⟨rfl, ⟨[], by simp [runLayers], by simp⟩, by simp, fun y _ s => Iff.rfl⟩
  | cons L rest ih =>
    intro st0 hnd hflat
    rw [List.flatten_cons] at hflat
    have hLnd : L.Nodup := (List.nodup_append.1 hflat).1
    have hrnd : rest.flatten.Nodup := (List.nodup_append.1 hflat).2.1
    have hdisj : L.Disjoint rest.flatten := (List.nodup_append.1 hflat).2.2
    obtain ⟨hids1, ⟨inew1, hinew1, hisub1⟩, hterm1, hpres1⟩ :=
      runLayer_spec executor st0 L hnd hLnd
    have hrl : runLayers executor st0 (L :: rest) =
        runLayers executor (runLayer executor st0 L) rest := rfl
    obtain ⟨hids2, ⟨inew2, hinew2, hisub2⟩, hterm2, hpres2⟩ :=
      ih (runLayer executor st0 L) (hids1 ▸ hnd) hrnd
    rw [hrl]
    refine ⟨hids2.trans hids1, ?_, ?_, ?_⟩
    · refine ⟨inew1 ++ inew2, ?_, ?_⟩
      · rw [hinew2, hinew1, List.append_assoc]
      · rw [List.flatten_cons]
        exact List.Sublist.append hisub1 hisub2
    · intro x hx hxid s hs hsid
      rw [List.flatten_cons] at hx
      rcases List.mem_append.1 hx with hxL | hxr
      · have hxnr : ¬ x ∈ rest.flatten := fun hm => hdisj hxL hm
        have h1 := (hpres2 x hxnr s).1 ⟨hs, hsid⟩
        exact hterm1 x hxL hxid s h1.1 h1.2
      · exact hterm2 x hxr (hids1 ▸ hxid) s hs hsid
    · intro y hy s
      rw [List.flatten_cons, List.mem_append] at hy
      push_neg at hy
      rw [hpres2 y hy.2 s]
      exact hpres1 y hy.1 s

/-- Unfolding of `executePlanOnPlan` when the sort succeeds. -/
theorem executePlanOnPlan_ok (executor : StepExecutor ε)
    (plan : ExecutionPlan ε) (layers : List (List String))
    (hok : topologicalSort plan.steps = .ok layers) :
    executePlanOnPlan executor plan =
      ⟨{ plan with
          steps := (runLayers executor ⟨plan.steps, [], []⟩ layers).steps,
          status :=
            if (runLayers executor ⟨plan.steps, [], []⟩ layers).steps.all
                (fun s => s.status = .completed) then PlanStatus.completed
            else if (runLayers executor ⟨plan.steps, [], []⟩ layers).steps.any
                (fun s => s.status = .failed) then PlanStatus.failed
            else PlanStatus.running },
        (runLayers executor ⟨plan.steps, [], []⟩ layers).invoked, none⟩ := by
  simp only [executePlanOnPlan, hok]

/-- Unfolding of `executePlanOnPlan` when the sort throws. -/
theorem executePlanOnPlan_err (executor : StepExecutor ε)
    (plan : ExecutionPlan ε) (e : String)
    (herr : topologicalSort plan.steps = .error e) :
    executePlanOnPlan executor plan =
      ⟨{ plan with status := PlanStatus.running }, [], some e⟩ := by
  simp only [executePlanOnPlan, herr]

/-- Terminal-state analysis of a successfully sorted plan execution. -/
theorem executePlanOnPlan_terminal (executor : StepExecutor ε)
    (plan : ExecutionPlan ε) (layers : List (List String))
    (hok : topologicalSort plan.steps = .ok layers) :
    ∀ s ∈ (runLayers executor ⟨plan.steps, [], []⟩ layers).steps,
      TerminalStatus s.status := by
  have hsound := topologicalSort_sound plan.steps layers hok
  have hperm := topologicalSort_perm plan.steps layers hok
  have hnd : (stepIds plan.steps).Nodup :=
    topologicalSort_nodup_ids plan.steps layers hok
  obtain ⟨hids, -, hterm, -⟩ :=
    runLayers_spec executor layers ⟨plan.steps, [], []⟩ hnd hsound.1.nd
  intro s hs
  have hsid : s.id ∈ stepIds plan.steps := by
    have : s.id ∈ stepIds (runLayers executor ⟨plan.steps, [], []⟩ layers).steps :=
      List.mem_map_of_mem TaskStep.id hs
    rw [hids] at this
    exact this
  exact hterm s.id (hperm.mem_iff.2 hsid) hsid s hs rfl

/-- C3.  For every stored plan with an acyclic, fully-resolvable
dependency graph (and pairwise-distinct step ids) and every executor,
`executePlan` returns normally, no step is left `pending` or `running`,
the plan's status is `completed` iff every step completed, and `failed`
iff at least one step failed. -/
theorem C3_final_plan_status {ε : Type}
    (store : List (String × ExecutionPlan ε)) (planId : String)
    (plan : ExecutionPlan ε) (executor : StepExecutor ε)
    (hlook : lookupA planId store = some plan)
    (hnd : (stepIds plan.steps).Nodup)
    (hres : Resolvable plan.steps)
    (hacyc : Acyclic plan.steps) :
    ∃ (plan' : ExecutionPlan ε) (invokedLog : List String),
      executePlan planId executor store =
        (setA planId plan' store, invokedLog, none) ∧
      (∀ s ∈ plan'.steps, s.status ≠ .pending ∧ s.status ≠ .running) ∧
      (plan'.status = .completed ↔ ∀ s ∈ plan'.steps, s.status = .completed) ∧
      (plan'.status = .failed ↔ ∃ s ∈ plan'.steps, s.status = .failed) := by
  obtain ⟨layers, hok⟩ := topologicalSort_complete plan.steps hnd hres hacyc
  have hterm := executePlanOnPlan_terminal executor plan layers hok
  have hrun := executePlanOnPlan_ok executor plan layers hok
  refine ⟨(executePlanOnPlan executor plan).plan,
    (executePlanOnPlan executor plan).invoked, ?_, ?_, ?_⟩
  · simp only [executePlan, hlook]
    rw [hrun]
  · intro s hs
    rw [hrun] at hs
    simp only at hs
    rcases hterm s hs with hc | hf
    · rw [hc]
      exact ⟨by decide, by decide⟩
    · rw [hf]
      exact ⟨by decide, by decide⟩
  · rw [hrun]
    simp only
    by_cases hall : ∀ s ∈ (runLayers executor ⟨plan.steps, [], []⟩ layers).steps,
        s.status = .completed
    · have hallb : ((runLayers executor ⟨plan.steps, [], []⟩ layers).steps.all
          (fun s => s.status = .completed)) = true := by
        rw [List.all_eq_true]
        intro s hs
        simp [hall s hs]
      rw [hallb, if_pos rfl]
      constructor
      · exact iff_of_true rfl hall
      · refine iff_of_false (by simp) ?_
        rintro ⟨s, hs, hf⟩
        rw [hall s hs] at hf
        exact TaskStatus.noConfusion hf
    · push_neg at hall
      obtain ⟨s₀, hs₀, hs₀ne⟩ := hall
      have hs₀f : s₀.status = .failed := by
        rcases hterm s₀ hs₀ with hc | hf
        · exact absurd hc hs₀ne
        · exact hf
      have hallb : ((runLayers executor ⟨plan.steps, [], []⟩ layers).steps.all
          (fun s => s.status = .completed)) = false := by
        rw [Bool.eq_false_iff]
        intro hcontra
        rw [List.all_eq_true] at hcontra
        have := hcontra s₀ hs₀
        simp only [decide_eq_true_eq] at this
        exact hs₀ne this
      have hanyb : ((runLayers executor ⟨plan.steps, [], []⟩ layers).steps.any
          (fun s => s.status = .failed)) = true := by
        rw [List.any_eq_true]
        exact ⟨s₀, hs₀, by simp [hs₀f]⟩
      rw [hallb, hanyb]
      simp only [Bool.false_eq_true, if_false, if_pos rfl]
      constructor
      · refine iff_of_false (by simp) ?_
        intro hcomp
        rw [hcomp s₀ hs₀] at hs₀f
        exact TaskStatus.noConfusion hs₀f
      · exact iff_of_true rfl ⟨s₀, hs₀, hs₀f⟩

/-- A concrete stored plan for witnesses: two steps, `b` depends on `a`. -/
def wPlan : ExecutionPlan Unit :=
  ⟨"p", [wStep "a" [], wStep "b" ["a"]], .pending, 0⟩

theorem C3_final_plan_status_witness :
    ∃ (plan' : ExecutionPlan Unit) (invokedLog : List String),
      executePlan "p" (fun _ => .ok ()) [("p", wPlan)] =
        (setA "p" plan' [("p", wPlan)], invokedLog, none) ∧
      (∀ s ∈ plan'.steps, s.status ≠ .pending ∧ s.status ≠ .running) ∧
      (plan'.status = .completed ↔ ∀ s ∈ plan'.steps, s.status = .completed) ∧
      (plan'.status = .failed ↔ ∃ s ∈ plan'.steps, s.status = .failed) := by
  refine C3_final_plan_status [("p", wPlan)] "p" wPlan (fun _ => .ok ())
    (by rfl) (by decide) (by unfold Resolvable; decide) ?_
  refine no_cycle_of_rank (fun x => if x = "b" then 1 else 0) ?_
  rintro u v ⟨s, hs, rfl, hu⟩
  rcases List.mem_cons.1 hs with rfl | hs2
  · simp [wPlan, wStep] at hu
  · rcases List.mem_cons.1 hs2 with rfl | hs3
    · simp only [wStep, List.mem_singleton] at hu
      subst hu
      decide
    · simp [wPlan, wStep] at hs3

/-- C2.  For every stored plan whose steps form the linear chain
`A → B → C` (`B` depends on `A`, `C` on `B`) with distinct ids, if the
injected executor throws for `A` with message `m`, then after
`executePlan`: `A` is `failed` with `result.error = m`; `B` and `C` are
`failed` with `result.error = "Dependency step failed"`; the executor was
invoked exactly on `A` (so never for `B` or `C`); the plan status is
`failed`; nothing is thrown. -/
theorem C2_cascading_chain {ε : Type} (a b c : String)
    (hab : a ≠ b) (hac : a ≠ c) (hbc : b ≠ c)
    (tyA tyB tyC : TaskType) (pA pB pC : List (String × ParamValue))
    (rA rB rC : Option (StepResult ε)) (pid planId : String)
    (pst : PlanStatus) (ca : Nat)
    (store : List (String × ExecutionPlan ε))
    (executor : StepExecutor ε) (m : String)
    (hlook : lookupA planId store = some
      ⟨pid, [⟨a, tyA, [], pA, .pending, rA⟩, ⟨b, tyB, [a], pB, .pending, rB⟩,
        ⟨c, tyC, [b], pC, .pending, rC⟩], pst, ca⟩)
    (hexec : executor ⟨a, tyA, [], pA, .running, rA⟩ = .error m) :
    executePlan planId executor store =
      (setA planId
        ⟨pid, [⟨a, tyA, [], pA, .failed, some (.err m)⟩,
          ⟨b, tyB, [a], pB, .failed, some (.err "Dependency step failed")⟩,
          ⟨c, tyC, [b], pC, .failed, some (.err "Dependency step failed")⟩],
          .failed, ca⟩ store, [a], none) := by
  have hba : b ≠ a := hab.symm
  have hca : c ≠ a := hac.symm
  have hcb : c ≠ b := hbc.symm
  have hsort : topologicalSort [(⟨a, tyA, [], pA, .pending, rA⟩ : TaskStep ε),
      ⟨b, tyB, [a], pB, .pending, rB⟩, ⟨c, tyC, [b], pC, .pending, rC⟩] =
      .ok [[a], [b], [c]] := by
    simp [topologicalSort, stepMapOf, setA, lookupA, initInDegree,
      initAdjacency, addAllEdges, addDepEdges, initialQueue, bfsLoop,
      processQueue, processNode, decSucc, hab, hac, hbc, hba, hca, hcb]
  have hcore : executePlanOnPlan executor
      ⟨pid, [⟨a, tyA, [], pA, .pending, rA⟩, ⟨b, tyB, [a], pB, .pending, rB⟩,
        ⟨c, tyC, [b], pC, .pending, rC⟩], pst, ca⟩ =
      ⟨⟨pid, [⟨a, tyA, [], pA, .failed, some (.err m)⟩,
        ⟨b, tyB, [a], pB, .failed, some (.err "Dependency step failed")⟩,
        ⟨c, tyC, [b], pC, .failed, some (.err "Dependency step failed")⟩],
        .failed, ca⟩, [a], none⟩ := by
    simp [executePlanOnPlan, hsort, runLayers, runLayer, dispatchStep,
      settleStep, findStep, updateStep, updateFirstStep, markDepFailed,
      markRunning, markCompleted, markFailed, depFailedResult, hexec,
      hab, hac, hbc, hba, hca, hcb]
  simp only [executePlan, hlook, hcore]

theorem C2_cascading_chain_witness :
    executePlan "p"
      (fun s => if s.id = "a" then .error "boom" else .ok ())
      [("p", (⟨"p", [⟨"a", .content_generation, [], [], .pending, none⟩,
        ⟨"b", .content_generation, ["a"], [], .pending, none⟩,
        ⟨"c", .content_generation, ["b"], [], .pending, none⟩], .pending, 0⟩ :
          ExecutionPlan Unit))] =
      (setA "p"
        ⟨"p", [⟨"a", .content_generation, [], [], .failed,
            some (.err "boom")⟩,
          ⟨"b", .content_generation, ["a"], [], .failed,
            some (.err "Dependency step failed")⟩,
          ⟨"c", .content_generation, ["b"], [], .failed,
            some (.err "Dependency step failed")⟩], .failed, 0⟩
        [("p", (⟨"p", [⟨"a", .content_generation, [], [], .pending, none⟩,
          ⟨"b", .content_generation, ["a"], [], .pending, none⟩,
          ⟨"c", .content_generation, ["b"], [], .pending, none⟩], .pending, 0⟩ :
            ExecutionPlan Unit))], ["a"], none) :=
  C2_cascading_chain "a" "b" "c" (by decide) (by decide) (by decide)
    .content_generation .content_generation .content_generation [] [] []
    none none none "p" "p" .pending 0 _ _ "boom" rfl rfl

/-- C6.  For every stored plan whose dependency graph is structurally
invalid (an unresolvable dependency id, or a cycle), `executePlan` throws
the structural error without invoking the executor for any step and
without touching any step: the stored plan keeps exactly its old steps
(only the plan status has moved to `running`), so every step still has
status `pending` and no result. -/
theorem C6_structural_error_preflight {ε : Type}
    (store : List (String × ExecutionPlan ε)) (planId : String)
    (plan : ExecutionPlan ε) (executor : StepExecutor ε)
    (hlook : lookupA planId store = some plan)
    (hinit : ∀ s ∈ plan.steps, s.status = .pending ∧ s.result = none)
    (hbad : (∃ s ∈ plan.steps, ∃ d ∈ s.dependencies,
        ¬ d ∈ stepIds plan.steps) ∨
      (Resolvable plan.steps ∧
        ∃ x, Relation.TransGen (depRel plan.steps) x x)) :
    ∃ e, executePlan planId executor store =
        (setA planId { plan with status := PlanStatus.running } store,
          [], some e) ∧
      ∀ s ∈ ({ plan with status := PlanStatus.running } :
          ExecutionPlan ε).steps, s.status = .pending ∧ s.result = none := by
  have herr : ∃ e, topologicalSort plan.steps = .error e := by
    rcases hbad with hmiss | ⟨hres, hcyc⟩
    · obtain ⟨d, -, hd⟩ := topologicalSort_err_notfound plan.steps hmiss
      exact ⟨depNotFoundMsg d, hd⟩
    · exact ⟨circularMsg, topologicalSort_err_cycle plan.steps hres hcyc⟩
  obtain ⟨e, he⟩ := herr
  refine ⟨e, ?_, hinit⟩
  simp only [executePlan, hlook, executePlanOnPlan_err executor plan e he]

theorem C6_structural_error_preflight_witness :
    ∃ e, executePlan "p" (fun _ => .ok ())
        [("p", (⟨"p", [wStep "a" ["zz"]], .pending, 0⟩ : ExecutionPlan Unit))] =
        (setA "p" { (⟨"p", [wStep "a" ["zz"]], .pending, 0⟩ :
            ExecutionPlan Unit) with status := PlanStatus.running }
          [("p", (⟨"p", [wStep "a" ["zz"]], .pending, 0⟩ : ExecutionPlan Unit))],
          [], some e) ∧
      ∀ s ∈ ({ (⟨"p", [wStep "a" ["zz"]], .pending, 0⟩ : ExecutionPlan Unit)
          with status := PlanStatus.running } : ExecutionPlan Unit).steps,
        s.status = .pending ∧ s.result = none := by
  refine C6_structural_error_preflight _ "p" _ _ rfl ?_ ?_
  · intro s hs
    rcases List.mem_cons.1 hs with rfl | hs2
    · exact ⟨rfl, rfl⟩
    · simp at hs2
  · exact Or.inl ⟨wStep "a" ["zz"], List.mem_cons_self _ _, "zz",
      by decide, by decide⟩

/-- C10.  Whenever `topologicalSort` returns without throwing, the layers
partition the input step ids (each id in exactly one layer, exactly once);
consequently `executePlan` on such a plan invokes the injected executor at
most once per step id. -/
theorem C10_partition_single_invocation {ε : Type}
    (steps : List (TaskStep ε)) (layers : List (List String))
    (h : topologicalSort steps = .ok layers) :
    layers.flatten.Nodup ∧
    layers.flatten.Perm (steps.map TaskStep.id) ∧
    ∀ (executor : StepExecutor ε) (plan : ExecutionPlan ε),
      plan.steps = steps →
      (executePlanOnPlan executor plan).invoked.Nodup := by
  obtain ⟨hsound, -, -⟩ := topologicalSort_sound steps layers h
  refine ⟨hsound.nd, topologicalSort_perm steps layers h, ?_⟩
  intro executor plan hsteps
  have hok : topologicalSort plan.steps = .ok layers := by rw [hsteps]; exact h
  have hnd : (stepIds plan.steps).Nodup :=
    topologicalSort_nodup_ids plan.steps layers hok
  have hndf : layers.flatten.Nodup := hsound.nd
  obtain ⟨-, ⟨inew, hinew, hisub⟩, -, -⟩ :=
    runLayers_spec executor layers ⟨plan.steps, [], []⟩ hnd hndf
  rw [executePlanOnPlan_ok executor plan layers hok]
  simp only
  rw [hinew, List.nil_append]
  exact hisub.nodup hndf

theorem C10_partition_single_invocation_witness :
    ([["a"], ["b"]] : List (List String)).flatten.Nodup ∧
    ([["a"], ["b"]] : List (List String)).flatten.Perm
      ([wStep "a" [], wStep "b" ["a"]].map TaskStep.id) ∧
    ∀ (executor : StepExecutor Unit) (plan : ExecutionPlan Unit),
      plan.steps = [wStep "a" [], wStep "b" ["a"]] →
      (executePlanOnPlan executor plan).invoked.Nodup :=
  C10_partition_single_invocation [wStep "a" [], wStep "b" ["a"]]
    [["a"], ["b"]] (by rfl)

-- ============================================================
-- Decimal rendering of `Nat` and injectivity of generated ids
-- ============================================================

theorem digitChar_ne_hyphen (m : Nat) : Nat.digitChar m ≠ '-' := by
  rcases Nat.lt_or_ge m 16 with h | h
  · interval_cases m <;> decide
  · unfold Nat.digitChar
    repeat rw [if_neg (by omega)]
    decide

/-- The digit list of `n` in base 10, most significant first (the value
`Nat.toDigitsCore` computes). -/
def natDigits (n : Nat) : List Char :=
  if n < 10 then [Nat.digitChar n]
  else natDigits (n / 10) ++ [Nat.digitChar (n % 10)]
decreasing_by exact Nat.div_lt_self (by omega) (by omega)

theorem natDigits_lt (n : Nat) (h : n < 10) :
    natDigits n = [Nat.digitChar n] := by
  rw [natDigits, if_pos h]

theorem natDigits_ge (n : Nat) (h : ¬ n < 10) :
    natDigits n = natDigits (n / 10) ++ [Nat.digitChar (n % 10)] := by
  rw [natDigits, if_neg h]

theorem toDigitsCore_eq_natDigits :
    ∀ (fuel n : Nat) (ds : List Char), n < fuel →
      Nat.toDigitsCore 10 fuel n ds = natDigits n ++ ds := by
  intro fuel
  induction fuel with
  | zero => omega
  | succ fuel ih =>
    intro n ds hlt
    rw [Nat.toDigitsCore]
    by_cases h0 : n / 10 = 0
    · have h10 : n < 10 := by omega
      simp only [h0, if_pos rfl]
      rw [natDigits_lt n h10, Nat.mod_eq_of_lt h10]
      rfl
    · have h10 : ¬ n < 10 := by omega
      simp only [h0, if_neg h0]
      have hdiv : n / 10 < n := Nat.div_lt_self (by omega) (by omega)
      rw [ih (n / 10) _ (by omega)]
      rw [natDigits_ge n h10, List.append_assoc]
      rfl

theorem repr_eq_natDigits (n : Nat) : Nat.repr n = (natDigits n).asString := by
  rw [Nat.repr, Nat.toDigits,
    toDigitsCore_eq_natDigits (n + 1) n [] (by omega), List.append_nil]

theorem natDigits_ne_hyphen (n : Nat) : ¬ '-' ∈ natDigits n := by
  induction n using Nat.strong_induction_on with
  | _ n ih =>
    by_cases h : n < 10
    · rw [natDigits_lt n h]
      simp only [List.mem_singleton]
      exact fun he => digitChar_ne_hyphen n he.symm
    · rw [natDigits_ge n h]
      simp only [List.mem_append, List.mem_singleton]
      rintro (hm | he)
      · exact ih (n / 10) (Nat.div_lt_self (by omega) (by omega)) hm
      · exact digitChar_ne_hyphen (n % 10) he.symm

/-- The numeric value of a decimal digit character. -/
def digitVal (ch : Char) : Nat := ch.toNat - 48

theorem digitVal_digitChar (m : Nat) (h : m < 10) :
    digitVal (Nat.digitChar m) = m := by
  interval_cases m <;> decide

theorem natDigits_foldl (n : Nat) :
    ∀ a, (natDigits n).foldl (fun acc ch => 10 * acc + digitVal ch) a =
      a * 10 ^ (natDigits n).length + n := by
  induction n using Nat.strong_induction_on with
  | _ n ih =>
    intro a
    by_cases h : n < 10
    · rw [natDigits_lt n h]
      simp [digitVal_digitChar n h]
      ring
    · rw [natDigits_ge n h]
      rw [List.foldl_append, List.length_append,
        ih (n / 10) (Nat.div_lt_self (by omega) (by omega)) a]
      simp only [List.foldl_cons, List.foldl_nil, List.length_cons,
        List.length_nil]
      rw [digitVal_digitChar (n % 10) (Nat.mod_lt n (by omega))]
      have hmod := Nat.div_add_mod n 10
      ring_nf
      omega

theorem natDigits_inj {m n : Nat} (h : natDigits m = natDigits n) : m = n := by
  have h1 := natDigits_foldl m 0
  have h2 := natDigits_foldl n 0
  rw [h] at h1
  omega

theorem append_sep_inj :
    ∀ (l1 l2 r1 r2 : List Char), ¬ '-' ∈ l1 → ¬ '-' ∈ l2 →
      l1 ++ '-' :: r1 = l2 ++ '-' :: r2 → l1 = l2 ∧ r1 = r2 := by
  intro l1
  induction l1 with
  | nil =>
    intro l2 r1 r2 _ h2 h
    cases l2 with
    | nil =>
      simp only [List.nil_append] at h
      exact ⟨rfl, List.cons.inj h |>.2⟩
    | cons c l2' =>
      simp only [List.nil_append, List.cons_append] at h
      obtain ⟨hc, -⟩ := List.cons.inj h
      exact absurd (hc ▸ List.mem_cons_self c l2') h2
  | cons c l1' ih =>
    intro l2 r1 r2 h1 h2 h
    cases l2 with
    | nil =>
      simp only [List.cons_append, List.nil_append] at h
      obtain ⟨hc, -⟩ := List.cons.inj h
      exact absurd (hc ▸ List.mem_cons_self c l1') h1
    | cons c2 l2' =>
      simp only [List.cons_append] at h
      obtain ⟨hc, ht⟩ := List.cons.inj h
      have hrec := ih l2' r1 r2
        (fun hm => h1 (List.mem_cons_of_mem c hm))
        (fun hm => h2 (List.mem_cons_of_mem c2 hm)) ht
      exact ⟨by rw [hc, hrec.1], hrec.2⟩

theorem toString_data (n : Nat) : (toString n).data = natDigits n := by
  show (Nat.repr n).data = natDigits n
  rw [repr_eq_natDigits]
  rfl

/-- Injectivity of the rendered id strings: equal
``step-${t}-${k}`` strings force equal timestamps and counters. -/
theorem stepIdString_inj (t1 k1 t2 k2 : Nat)
    (h : ("step-" ++ toString t1 ++ "-" ++ toString k1 : String) =
      "step-" ++ toString t2 ++ "-" ++ toString k2) : t1 = t2 ∧ k1 = k2 := by
  have hd := congrArg String.data h
  simp only [String.data_append] at hd
  rw [toString_data, toString_data, toString_data, toString_data] at hd
  have hd' : natDigits t1 ++ '-' :: natDigits k1 =
      natDigits t2 ++ '-' :: natDigits k2 := by
    have : ∀ (T C : List Char),
        ("step-".data ++ T) ++ "-".data ++ C =
          "step-".data ++ (T ++ '-' :: C) := by
      intro T C
      simp
    rw [this, this] at hd
    exact List.append_cancel_left hd
  obtain ⟨hT, hC⟩ := append_sep_inj (natDigits t1) (natDigits t2) _ _
    (natDigits_ne_hyphen t1) (natDigits_ne_hyphen t2) hd'
  exact ⟨natDigits_inj hT, natDigits_inj hC⟩

-- ============================================================
-- Properties of `buildSteps` / `createPlan`
-- ============================================================

theorem buildStepsPass1_counter (intent : ParsedIntent) (tf : Nat → Nat) :
    ∀ (l : List StepTemplate) (k c : Nat),
      c ≤ (buildStepsPass1 (ε := ε) intent tf l k c).2 := by
  intro l
  induction l with
  | nil => intro k c; exact Nat.le_refl c
  | cons st rest ih =>
    intro k c
    have := ih (k + 1) (c + 1)
    simp only [buildStepsPass1, generateStepId]
    omega

theorem buildStepsPass1_ids (intent : ParsedIntent) (tf : Nat → Nat) :
    ∀ (l : List StepTemplate) (k c : Nat),
      ∀ x ∈ stepIds (buildStepsPass1 (ε := ε) intent tf l k c).1,
        ∃ (t k' : Nat), c < k' ∧
          k' ≤ (buildStepsPass1 (ε := ε) intent tf l k c).2 ∧
          x = "step-" ++ toString t ++ "-" ++ toString k' := by
  intro l
  induction l with
  | nil => intro k c x hx; simp [buildStepsPass1, stepIds] at hx
  | cons st rest ih =>
    intro k c x hx
    simp only [buildStepsPass1, generateStepId, stepIds, List.map_cons,
      List.mem_cons] at hx
    rcases hx with rfl | hx
    · refine ⟨tf k, c + 1, by omega, ?_, rfl⟩
      simp only [buildStepsPass1, generateStepId]
      exact buildStepsPass1_counter intent tf rest (k + 1) (c + 1)
    · obtain ⟨t, k', hlt, hle, he⟩ := ih (k + 1) (c + 1) x hx
      refine ⟨t, k', by omega, ?_, he⟩
      simp only [buildStepsPass1, generateStepId]
      exact hle

theorem buildStepsPass1_nodup (intent : ParsedIntent) (tf : Nat → Nat) :
    ∀ (l : List StepTemplate) (k c : Nat),
      (stepIds (buildStepsPass1 (ε := ε) intent tf l k c).1).Nodup := by
  intro l
  induction l with
  | nil => intro k c; simp [buildStepsPass1, stepIds]
  | cons st rest ih =>
    intro k c
    simp only [buildStepsPass1, generateStepId, stepIds, List.map_cons,
      List.nodup_cons]
    refine ⟨?_, ih (k + 1) (c + 1)⟩
    intro hmem
    obtain ⟨t, k', hlt, -, he⟩ :=
      buildStepsPass1_ids intent tf rest (k + 1) (c + 1) _ hmem
    obtain ⟨-, hk⟩ := stepIdString_inj (tf k) (c + 1) t k' he
    omega

theorem buildStepsPass1_fields (intent : ParsedIntent) (tf : Nat → Nat) :
    ∀ (l : List StepTemplate) (k c : Nat),
      ∀ s ∈ (buildStepsPass1 (ε := ε) intent tf l k c).1,
        s.status = .pending ∧ s.result = none := by
  intro l
  induction l with
  | nil => intro k c s hs; simp [buildStepsPass1] at hs
  | cons st rest ih =>
    intro k c s hs
    simp only [buildStepsPass1, List.mem_cons] at hs
    rcases hs with rfl | hs
    · exact ⟨rfl, rfl⟩
    · exact ih (k + 1) (c + 1) s hs

theorem fillDeps_shape (template : PlanTemplate) (sids : List String) :
    ∀ (l : List (TaskStep ε)) (i : Nat),
      ∀ s' ∈ fillDeps template sids l i,
        ∃ s ∈ l, s'.id = s.id ∧ s'.status = s.status ∧ s'.result = s.result := by
  intro l
  induction l with
  | nil => intro i s' hs'; simp [fillDeps] at hs'
  | cons s rest ih =>
    intro i s' hs'
    simp only [fillDeps, List.mem_cons] at hs'
    rcases hs' with rfl | hs'
    · exact ⟨s, List.mem_cons_self s rest, rfl, rfl, rfl⟩
    · obtain ⟨t, ht, h⟩ := ih (i + 1) s' hs'
      exact ⟨t, List.mem_cons_of_mem s ht, h⟩

theorem fillDeps_stepIds (template : PlanTemplate) (sids : List String) :
    ∀ (l : List (TaskStep ε)) (i : Nat),
      stepIds (fillDeps template sids l i) = stepIds l := by
  intro l
  induction l with
  | nil => intro i; rfl
  | cons s rest ih =>
    intro i
    simp only [fillDeps, stepIds, List.map_cons]
    rw [show (List.map TaskStep.id (fillDeps template sids rest (i + 1))) =
      stepIds (fillDeps template sids rest (i + 1)) from rfl, ih (i + 1)]
    rfl

theorem createPlan_steps_nodup (intent : ParsedIntent) (tf : Nat → Nat)
    (tPlan tCreated : Nat) (st : OrchestratorState ε) :
    (stepIds (createPlan intent tf tPlan tCreated st).1.steps).Nodup := by
  have h1 := buildStepsPass1_nodup (ε := ε) intent tf
    (getPlanTemplate intent.taskType).steps 0 st.stepCounter
  have h2 := fillDeps_stepIds (ε := ε) (getPlanTemplate intent.taskType)
    ((buildStepsPass1 (ε := ε) intent tf
      (getPlanTemplate intent.taskType).steps 0 st.stepCounter).1.map
        TaskStep.id)
    (buildStepsPass1 (ε := ε) intent tf
      (getPlanTemplate intent.taskType).steps 0 st.stepCounter).1 0
  show (stepIds (fillDeps _ _ _ 0)).Nodup
  rw [h2]
  exact h1

theorem createPlan_steps_pending (intent : ParsedIntent) (tf : Nat → Nat)
    (tPlan tCreated : Nat) (st : OrchestratorState ε) :
    ∀ s ∈ (createPlan intent tf tPlan tCreated st).1.steps,
      s.status = .pending ∧ s.result = none := by
  intro s hs
  obtain ⟨t, ht, -, hst, hres⟩ :=
    fillDeps_shape (ε := ε) (getPlanTemplate intent.taskType) _ _ 0 s hs
  obtain ⟨h1, h2⟩ := buildStepsPass1_fields intent tf
    (getPlanTemplate intent.taskType).steps 0 st.stepCounter t ht
  exact ⟨hst.trans h1, hres.trans h2⟩

/-- When the template has a single step whose dependency entry is empty,
`createPlan` yields a singleton step list with no dependencies. -/
theorem createPlan_singleton (intent : ParsedIntent) (tf : Nat → Nat)
    (tPlan tCreated : Nat) (st : OrchestratorState ε) (a : StepTemplate)
    (hsteps : (getPlanTemplate intent.taskType).steps = [a])
    (hdep : (getPlanTemplate intent.taskType).dependencies 0 = []) :
    ∃ s, (createPlan intent tf tPlan tCreated st).1.steps = [s] ∧
      s.dependencies = [] := by
  refine ⟨⟨(generateStepId (tf 0) st.stepCounter).1, a.type, [],
    mkStepParameters intent a.descriptionKey, .pending, none⟩, ?_, rfl⟩
  simp only [createPlan, buildSteps]
  rw [hsteps]
  simp [buildStepsPass1, fillDeps, hdep, generateStepId]

/-- A concrete intent used by the witnesses below. -/
def wIntent : ParsedIntent :=
  { taskType := .competitor_analysis, platform := .xiaohongshu,
    category := "beauty", parameters := [], confidence := 0 }

/-- A concrete empty orchestrator state used by the witnesses below. -/
def wState : OrchestratorState Unit :=
  { planStore := [], stepIndex := [], planCounter := 0, stepCounter := 0 }

/-- C8: `createPlan` always returns a plan (the embedding is a total
function, matching the absence of any `throw` in `createPlan` /
`buildSteps` / `getPlanTemplate`); the returned plan's status is
`pending` and every built step starts `pending` with no result; and for
every non-composite task type (anything other than `strategy_generation`,
`content_publish`, `operation_summary`) the plan has exactly one step,
whose dependency list is empty. -/
theorem C8_createPlan_total_pending (intent : ParsedIntent) (tf : Nat → Nat)
    (tPlan tCreated : Nat) (st : OrchestratorState ε) :
    (createPlan intent tf tPlan tCreated st).1.status = .pending ∧
    (∀ s ∈ (createPlan intent tf tPlan tCreated st).1.steps,
      s.status = .pending ∧ s.result = none) ∧
    (intent.taskType ≠ .strategy_generation →
      intent.taskType ≠ .content_publish →
      intent.taskType ≠ .operation_summary →
      ∃ s, (createPlan intent tf tPlan tCreated st).1.steps = [s] ∧
        s.dependencies = []) := by
  refine ⟨rfl, createPlan_steps_pending intent tf tPlan tCreated st, ?_⟩
  intro h1 h2 h3
  cases htt : intent.taskType with
  | strategy_generation => exact absurd htt h1
  | content_publish => exact absurd htt h2
  | operation_summary => exact absurd htt h3
  | competitor_analysis =>
    exact createPlan_singleton intent tf tPlan tCreated st _ (by rw [htt]; rfl) (by rw [htt]; rfl)
  | trending_tracking =>
    exact createPlan_singleton intent tf tPlan tCreated st _ (by rw [htt]; rfl) (by rw [htt]; rfl)
  | content_generation =>
    exact createPlan_singleton intent tf tPlan tCreated st _ (by rw [htt]; rfl) (by rw [htt]; rfl)
  | comment_analysis =>
    exact createPlan_singleton intent tf tPlan tCreated st _ (by rw [htt]; rfl) (by rw [htt]; rfl)

/-- Witness for C8 at a concrete non-composite intent. -/
theorem C8_createPlan_total_pending_witness :
    (createPlan (ε := Unit) wIntent (fun _ => 5) 6 7 wState).1.status =
      .pending ∧
    (∀ s ∈ (createPlan (ε := Unit) wIntent (fun _ => 5) 6 7 wState).1.steps,
      s.status = .pending ∧ s.result = none) ∧
    (∃ s, (createPlan (ε := Unit) wIntent (fun _ => 5) 6 7 wState).1.steps
        = [s] ∧ s.dependencies = []) := by
  obtain ⟨ha, hb, hc⟩ :=
    C8_createPlan_total_pending (ε := Unit) wIntent (fun _ => 5) 6 7 wState
  exact ⟨ha, hb, hc (by decide) (by decide) (by decide)⟩

/-- C9, counterexample to global uniqueness.  Two `generateStepId` calls
observing the same `Date.now()` value, with a `clearAllPlans` call in
between (which resets `stepCounter` to 0), produce the SAME id string:
the claimed global pairwise distinctness of successively generated step
ids fails across a `clearAllPlans` reset. -/
theorem C9_global_uniqueness_fails :
    (generateStepId 100 wState.stepCounter).1 =
      (generateStepId 100
        (clearAllPlans
          { wState with
              stepCounter := (generateStepId 100 wState.stepCounter).2 }
          ).stepCounter).1 := rfl

/-- C9, amended.  The true parts of the uniqueness claim: (i) within any
single plan returned by `createPlan` the step ids are pairwise distinct,
and (ii) any two `generateStepId` calls with distinct counter values
(i.e. without an intervening `clearAllPlans` reset) yield distinct ids,
whatever `Date.now()` values they observe — because the decimal counter
rendering after the final `-` separator differs. -/
theorem C9_step_ids_unique :
    (∀ (intent : ParsedIntent) (tf : Nat → Nat) (tPlan tCreated : Nat)
        (st : OrchestratorState ε),
      (stepIds (createPlan intent tf tPlan tCreated st).1.steps).Nodup) ∧
    (∀ t1 c1 t2 c2 : Nat, c1 ≠ c2 →
      (generateStepId t1 c1).1 ≠ (generateStepId t2 c2).1) := by
  refine ⟨fun intent tf tPlan tCreated st =>
    createPlan_steps_nodup intent tf tPlan tCreated st, ?_⟩
  intro t1 c1 t2 c2 hne heq
  obtain ⟨-, hk⟩ := stepIdString_inj t1 (c1 + 1) t2 (c2 + 1) heq
  omega

/-- Witness for C9 (amended) at concrete inputs. -/
theorem C9_step_ids_unique_witness :
    (stepIds (createPlan (ε := Unit) wIntent (fun k => k) 3 4
        wState).1.steps).Nodup ∧
    (0 : Nat) ≠ 1 ∧ (generateStepId 5 0).1 ≠ (generateStepId 5 1).1 := by
  obtain ⟨ha, hb⟩ := C9_step_ids_unique (ε := Unit)
  exact ⟨ha wIntent (fun k => k) 3 4 wState, by decide,
    hb 5 0 5 1 (by decide)⟩

/-- C7.  For every intent with task type `strategy_generation`, the built
plan has exactly four steps; step 2 depends on the ids of steps 0 and 1,
step 3 on the id of step 2 (steps 0 and 1 have no dependencies); and
`topologicalSort` on those steps returns exactly the three layers
`[[s0, s1], [s2], [s3]]`. -/
theorem C7_strategy_template (intent : ParsedIntent) (tf : Nat → Nat)
    (tPlan tCreated : Nat) (st : OrchestratorState ε)
    (hintent : intent.taskType = .strategy_generation) :
    ∃ s0 s1 s2 s3 : TaskStep ε,
      (createPlan intent tf tPlan tCreated st).1.steps = [s0, s1, s2, s3] ∧
      s0.dependencies = [] ∧ s1.dependencies = [] ∧
      s2.dependencies = [s0.id, s1.id] ∧ s3.dependencies = [s2.id] ∧
      topologicalSort (createPlan intent tf tPlan tCreated st).1.steps =
        .ok [[s0.id, s1.id], [s2.id], [s3.id]] := by
  have hsteps : (createPlan intent tf tPlan tCreated st).1.steps =
      [⟨"step-" ++ toString (tf 0) ++ "-" ++ toString (st.stepCounter + 1),
        .competitor_analysis, [],
        mkStepParameters intent "collect_competitor_data", .pending, none⟩,
       ⟨"step-" ++ toString (tf 1) ++ "-" ++
          toString (st.stepCounter + 1 + 1),
        .trending_tracking, [],
        mkStepParameters intent "collect_trending_data", .pending, none⟩,
       ⟨"step-" ++ toString (tf 2) ++ "-" ++
          toString (st.stepCounter + 1 + 1 + 1),
        .strategy_generation,
        ["step-" ++ toString (tf 0) ++ "-" ++ toString (st.stepCounter + 1),
         "step-" ++ toString (tf 1) ++ "-" ++
           toString (st.stepCounter + 1 + 1)],
        mkStepParameters intent "generate_strategy", .pending, none⟩,
       ⟨"step-" ++ toString (tf 3) ++ "-" ++
          toString (st.stepCounter + 1 + 1 + 1 + 1),
        .content_generation,
        ["step-" ++ toString (tf 2) ++ "-" ++
          toString (st.stepCounter + 1 + 1 + 1)],
        mkStepParameters intent "generate_strategy_content", .pending,
        none⟩] := by
    have hb : (createPlan intent tf tPlan tCreated st).1.steps =
        (buildSteps intent (getPlanTemplate intent.taskType) tf
          st.stepCounter).1 := rfl
    rw [hb, hintent]
    rfl
  have h01 : ("step-" ++ toString (tf 0) ++ "-" ++
      toString (st.stepCounter + 1) : String) ≠
      "step-" ++ toString (tf 1) ++ "-" ++
        toString (st.stepCounter + 1 + 1) := by
    intro h
    obtain ⟨-, hk⟩ := stepIdString_inj _ _ _ _ h
    omega
  have h02 : ("step-" ++ toString (tf 0) ++ "-" ++
      toString (st.stepCounter + 1) : String) ≠
      "step-" ++ toString (tf 2) ++ "-" ++
        toString (st.stepCounter + 1 + 1 + 1) := by
    intro h
    obtain ⟨-, hk⟩ := stepIdString_inj _ _ _ _ h
    omega
  have h03 : ("step-" ++ toString (tf 0) ++ "-" ++
      toString (st.stepCounter + 1) : String) ≠
      "step-" ++ toString (tf 3) ++ "-" ++
        toString (st.stepCounter + 1 + 1 + 1 + 1) := by
    intro h
    obtain ⟨-, hk⟩ := stepIdString_inj _ _ _ _ h
    omega
  have h12 : ("step-" ++ toString (tf 1) ++ "-" ++
      toString (st.stepCounter + 1 + 1) : String) ≠
      "step-" ++ toString (tf 2) ++ "-" ++
        toString (st.stepCounter + 1 + 1 + 1) := by
    intro h
    obtain ⟨-, hk⟩ := stepIdString_inj _ _ _ _ h
    omega
  have h13 : ("step-" ++ toString (tf 1) ++ "-" ++
      toString (st.stepCounter + 1 + 1) : String) ≠
      "step-" ++ toString (tf 3) ++ "-" ++
        toString (st.stepCounter + 1 + 1 + 1 + 1) := by
    intro h
    obtain ⟨-, hk⟩ := stepIdString_inj _ _ _ _ h
    omega
  have h23 : ("step-" ++ toString (tf 2) ++ "-" ++
      toString (st.stepCounter + 1 + 1 + 1) : String) ≠
      "step-" ++ toString (tf 3) ++ "-" ++
        toString (st.stepCounter + 1 + 1 + 1 + 1) := by
    intro h
    obtain ⟨-, hk⟩ := stepIdString_inj _ _ _ _ h
    omega
  have h10 := h01.symm
  have h20 := h02.symm
  have h30 := h03.symm
  have h21 := h12.symm
  have h31 := h13.symm
  have h32 := h23.symm
  refine ⟨_, _, _, _, hsteps, rfl, rfl, rfl, rfl, ?_⟩
  rw [hsteps]
  simp [topologicalSort, stepMapOf, setA, lookupA, initInDegree,
    initAdjacency, addAllEdges, addDepEdges, initialQueue, bfsLoop,
    processQueue, processNode, decSucc, h01, h02, h03, h12, h13, h23,
    h10, h20, h30, h21, h31, h32]

/-- A concrete strategy-generation intent for the C7 witness. -/
def wIntentStrat : ParsedIntent :=
  { taskType := .strategy_generation, platform := .xiaohongshu,
    category := "beauty", parameters := [], confidence := 0 }

/-- Witness for C7 at a concrete strategy-generation intent. -/
theorem C7_strategy_template_witness :
    ∃ s0 s1 s2 s3 : TaskStep Unit,
      (createPlan wIntentStrat (fun k => k) 9 9 wState).1.steps =
        [s0, s1, s2, s3] ∧
      s0.dependencies = [] ∧ s1.dependencies = [] ∧
      s2.dependencies = [s0.id, s1.id] ∧ s3.dependencies = [s2.id] ∧
      topologicalSort (createPlan wIntentStrat (fun k => k) 9 9
          wState).1.steps =
        .ok [[s0.id, s1.id], [s2.id], [s3.id]] :=
  C7_strategy_template wIntentStrat (fun k => k) 9 9 wState rfl
